import Mathlib

/-!
Verification of the resilient remote-data access layer of the artie
scraper: the TTL cache (`cache_manager.py`), the retrying fetch pipeline
(`scraper.get`), the cached remote accessor (`scraper.get_game_data`),
and the batch orchestrator (`app.App._scrape_all_roms`).

The Python source is shallowly embedded: machine time is modelled as an
explicit natural-number `now` parameter (the code reads `time.time()`),
Python dictionaries as insertion-ordered association lists with distinct
keys, and the transport (the pooled `requests` session) as an oracle
mapping the attempt index to its outcome.
-/

namespace Artie

/-- Model of the Python values the cache layer stores and compares:
`None`, booleans, integers and strings.  `bytes` payloads are modelled
as `List Nat`. -/
inductive PyVal where
  | none
  | bool (b : Bool)
  | int (n : Int)
  | str (s : String)
deriving DecidableEq, Repr

/-- Python truthiness for the modelled values: `None`, `False`, `0` and
the empty string are falsy, everything else truthy (used by
`if cache_manager.get(...)` checks in `scraper.py`). -/
def PyVal.truthy : PyVal → Bool
  | .none => false
  | .bool b => b
  | .int n => n != 0
  | .str s => s != ""

/-- Embeds `cache_manager.CacheEntry`: data payload, creation timestamp,
time-to-live and the key it is stored under. -/
structure CacheEntry where
  data : PyVal
  timestamp : Nat
  ttl : Nat
  key : String
deriving DecidableEq, Repr

/-- Embeds `CacheEntry.is_expired`: `time.time() > self.timestamp + self.ttl`
(strict comparison), with `time.time()` passed explicitly as `now`. -/
def CacheEntry.is_expired (e : CacheEntry) (now : Nat) : Bool :=
  now > e.timestamp + e.ttl

/-- One cache region (`_memory_cache`, `_api_cache`, `_file_cache`):
a Python dict from key to entry, modelled as an insertion-ordered
association list whose keys are distinct. -/
abbrev Region := List (String × CacheEntry)

/-- The monotonic counters of `CacheManager._stats` that `get`/`set`
touch. -/
structure CacheStats where
  hits : Nat
  misses : Nat
  evictions : Nat
deriving DecidableEq, Repr

/-- Dict lookup `cache_dict[key]` / `key in cache_dict`. -/
def regionLookup (r : Region) (k : String) : Option CacheEntry :=
  (r.find? (fun p => p.1 == k)).map (·.2)

/-- Dict deletion `del cache_dict[key]`. -/
def regionErase (r : Region) (k : String) : Region :=
  r.filter (fun p => !(p.1 == k))

/-- Embeds `CacheManager.get(key, cache_type)` on one region: a missing
key counts a miss; an expired entry is deleted and counts a miss and an
eviction; otherwise the stored data is returned and a hit counted. -/
def cacheGet (r : Region) (s : CacheStats) (k : String) (now : Nat) :
    Option PyVal × Region × CacheStats :=
  match regionLookup r k with
  | Option.none => (Option.none, r, { s with misses := s.misses + 1 })
  | Option.some e =>
    if e.is_expired now then
      (Option.none, regionErase r k,
        { s with misses := s.misses + 1, evictions := s.evictions + 1 })
    else
      (Option.some e.data, r, { s with hits := s.hits + 1 })

/-- Dict assignment `cache_dict[key] = entry`: replaces in place when the
key exists (Python dicts keep the original position), appends otherwise. -/
def regionInsert (r : Region) (k : String) (e : CacheEntry) : Region :=
  if (r.find? (fun p => p.1 == k)).isSome then
    r.map (fun p => if p.1 == k then (k, e) else p)
  else
    r ++ [(k, e)]

/-- Embeds `CacheManager._cleanup_expired_entries`: delete every expired
entry of the region. -/
def cleanupExpired (r : Region) (now : Nat) : Region :=
  r.filter (fun p => !(p.2.is_expired now))

/-- The comparison key of `sorted(cache_dict.items(), key=lambda x: x[1].timestamp)`. -/
def entryLE (a b : String × CacheEntry) : Prop :=
  a.2.timestamp ≤ b.2.timestamp

instance : DecidableRel entryLE := fun a b => Nat.decLe a.2.timestamp b.2.timestamp

instance : IsTotal (String × CacheEntry) entryLE :=
  ⟨fun x y => Nat.le_total x.2.timestamp y.2.timestamp⟩

instance : IsTrans (String × CacheEntry) entryLE :=
  ⟨fun _ _ _ hab hbc => Nat.le_trans hab hbc⟩

/-- The slice `sorted_entries[:entries_to_remove]` of
`_enforce_cache_size_limit`: the `len - max_size` oldest-timestamp items. -/
def doomedOf (r : Region) (maxSize : Nat) : Region :=
  (r.insertionSort entryLE).take (r.length - maxSize)

/-- An entry survives `_enforce_cache_size_limit` when its key is not
among the keys deleted by the `del cache_dict[key]` loop. -/
def survivorP (r : Region) (maxSize : Nat) (p : String × CacheEntry) : Bool :=
  !((doomedOf r maxSize).any (fun q => q.1 == p.1))

/-- Embeds `CacheManager._enforce_cache_size_limit`: when the region is
over `max_size`, sort its items by timestamp (oldest first) and delete
the first `len - max_size` of them from the dict by key. -/
def enforceSizeLimit (r : Region) (maxSize : Nat) : Region :=
  if r.length ≤ maxSize then r
  else r.filter (survivorP r maxSize)

/-- Embeds `CacheManager.set(key, value, ttl, cache_type)` on one region:
insert the fresh entry (timestamp `now`), then cleanup expired entries,
then enforce the region's size limit. -/
def cacheSet (r : Region) (k : String) (v : PyVal) (ttl : Nat) (now : Nat)
    (maxSize : Nat) : Region :=
  enforceSizeLimit (cleanupExpired (regionInsert r k ⟨v, now, ttl, k⟩) now) maxSize

/-- Region keys are distinct, as in a Python dict. -/
def regionWF (r : Region) : Prop :=
  (r.map (·.1)).Nodup

/-- Unfolding of `cacheGet` when the key is present. -/
theorem cacheGet_of_lookup {r : Region} {k : String} {e : CacheEntry}
    (s : CacheStats) (now : Nat) (h : regionLookup r k = Option.some e) :
    cacheGet r s k now =
      if e.is_expired now then
        (Option.none, regionErase r k,
          { s with misses := s.misses + 1, evictions := s.evictions + 1 })
      else
        (Option.some e.data, r, { s with hits := s.hits + 1 }) := by
  simp [cacheGet, h]

/-- C4 (counterexample): the claim says `get` returns absent exactly when
`now >= createdAt + ttl`.  At the boundary instant `now = createdAt + ttl`
(entry created at 0 with ttl 10, read at 10) the code's strict comparison
`time.time() > timestamp + ttl` in `CacheEntry.is_expired` is false, so
`get` still returns the stored value although `now >= createdAt + ttl`
holds. -/
theorem claim4_ttl_boundary_counterexample :
    (cacheGet [("k", ⟨.int 7, 0, 10, "k"⟩)] ⟨0, 0, 0⟩ "k" 10).1
        = Option.some (.int 7)
    ∧ 10 ≥ (0 : Nat) + 10 := by
  constructor
  · rfl
  · decide

/-- C4 (amended): for a stored entry, `get` returns absent exactly when
`now > createdAt + ttl` (strictly); when the entry is expired it is
removed and counted as a miss and an eviction, not a hit; when it is
unexpired the stored value is returned, a hit counted, the region
unchanged, and repeated unexpired reads return the identical value. -/
theorem claim4_ttl_strict (r : Region) (s : CacheStats) (k : String)
    (now : Nat) (e : CacheEntry) (h : regionLookup r k = Option.some e) :
    ((cacheGet r s k now).1 = Option.none ↔ now > e.timestamp + e.ttl)
    ∧ (now > e.timestamp + e.ttl →
        cacheGet r s k now =
          (Option.none, regionErase r k,
            { s with misses := s.misses + 1, evictions := s.evictions + 1 }))
    ∧ (¬ now > e.timestamp + e.ttl →
        cacheGet r s k now = (Option.some e.data, r, { s with hits := s.hits + 1 }))
    ∧ (¬ now > e.timestamp + e.ttl → ∀ s' : CacheStats, ∀ now' : Nat,
        ¬ now' > e.timestamp + e.ttl →
        (cacheGet (cacheGet r s k now).2.1 s' k now').1 = Option.some e.data) := by
  rw [cacheGet_of_lookup s now h]
  by_cases hexp : now > e.timestamp + e.ttl
  · have hb : e.is_expired now = true := by
      simpa [CacheEntry.is_expired] using hexp
    refine ⟨by simp [hb, hexp], fun _ => by simp [hb], fun hc => absurd hexp hc, ?_⟩
    exact fun hc => absurd hexp hc
  · have hb : e.is_expired now = false := by
      simpa [CacheEntry.is_expired] using hexp
    refine ⟨by simp [hb, hexp], fun hc => absurd hc hexp, fun _ => by simp [hb], ?_⟩
    intro _ s' now' hexp'
    have hb' : e.is_expired now' = false := by
      simpa [CacheEntry.is_expired] using hexp'
    simp [hb, cacheGet_of_lookup s' now' h, hb']

/-- C4 (witness): the amended theorem applied to a one-entry region read
before expiry. -/
theorem claim4_ttl_strict_witness :
    cacheGet [("k", ⟨.int 7, 0, 10, "k"⟩)] ⟨0, 0, 0⟩ "k" 5
      = (Option.some (.int 7), [("k", ⟨.int 7, 0, 10, "k"⟩)], ⟨1, 0, 0⟩) :=
  (claim4_ttl_strict [("k", ⟨.int 7, 0, 10, "k"⟩)] ⟨0, 0, 0⟩ "k" 5
    ⟨.int 7, 0, 10, "k"⟩ rfl).2.2.1 (by decide)

instance (r : Region) : Decidable (regionWF r) := by
  unfold regionWF
  exact List.nodupDecidable _

/-- Inserting preserves distinctness of region keys. -/
theorem regionWF_insert (r : Region) (k : String) (e : CacheEntry)
    (hwf : regionWF r) : regionWF (regionInsert r k e) := by
  unfold regionInsert
  split
  · have hkeys : (r.map (fun p => if p.1 == k then (k, e) else p)).map (·.1)
        = r.map (·.1) := by
      rw [List.map_map]
      refine List.map_congr_left (fun p _ => ?_)
      by_cases h : p.1 = k
      · simp [Function.comp, h]
      · simp [Function.comp, h]
    unfold regionWF
    rw [hkeys]
    exact hwf
  · rename_i hnone
    have hfind : r.find? (fun p => p.1 == k) = Option.none := by
      cases hf : r.find? (fun p => p.1 == k) with
      | none => rfl
      | some x => exact absurd (by simp [hf]) hnone
    have hmem : ∀ p ∈ r, ¬(p.1 == k) = true := List.find?_eq_none.mp hfind
    unfold regionWF
    rw [List.map_append]
    simp only [List.map_cons, List.map_nil]
    rw [List.nodup_append]
    refine ⟨hwf, List.nodup_singleton k, ?_⟩
    intro a ha hb
    simp only [List.mem_singleton] at hb
    subst hb
    obtain ⟨p, hp, hpk⟩ := List.mem_map.mp ha
    exact (hmem p hp) (by simp [hpk])

/-- Filtering preserves distinctness of region keys. -/
theorem regionWF_filter (r : Region) (p : String × CacheEntry → Bool)
    (hwf : regionWF r) : regionWF (r.filter p) :=
  List.Nodup.sublist (List.Sublist.map _ (List.filter_sublist r)) hwf

/-- Every doomed entry matches the doomed-key predicate. -/
theorem doomed_not_survivor (r : Region) (maxSize : Nat) :
    ∀ q ∈ doomedOf r maxSize, survivorP r maxSize q = false := by
  intro q hq
  unfold survivorP
  simp only [Bool.not_eq_false', List.any_eq_true]
  exact ⟨q, hq, by simp⟩

/-- Length of the doomed slice. -/
theorem doomedOf_length (r : Region) (maxSize : Nat) :
    (doomedOf r maxSize).length = r.length - maxSize := by
  unfold doomedOf
  rw [List.length_take, (List.perm_insertionSort entryLE r).length_eq]
  exact Nat.min_eq_left (Nat.sub_le _ _)

/-- Size-limit enforcement leaves at most `maxSize` entries. -/
theorem enforceSizeLimit_length_le (r : Region) (maxSize : Nat) :
    (enforceSizeLimit r maxSize).length ≤ maxSize := by
  unfold enforceSizeLimit
  split
  · assumption
  · rename_i hgt
    have hlt : maxSize < r.length := Nat.lt_of_not_le hgt
    have hsub : (doomedOf r maxSize).Sublist
        ((r.insertionSort entryLE).filter (fun q => !(survivorP r maxSize q))) := by
      have h1 : (doomedOf r maxSize).filter (fun q => !(survivorP r maxSize q))
          = doomedOf r maxSize := by
        refine List.filter_eq_self.mpr (fun q hq => ?_)
        rw [doomed_not_survivor r maxSize q hq]
        rfl
      have h2 : ((doomedOf r maxSize).filter (fun q => !(survivorP r maxSize q))).Sublist
          ((r.insertionSort entryLE).filter (fun q => !(survivorP r maxSize q))) :=
        List.Sublist.filter _ (List.take_sublist _ _)
      rw [h1] at h2
      exact h2
    have hfger : r.length - maxSize
        ≤ (r.filter (fun q => !(survivorP r maxSize q))).length := by
      have h3 := hsub.length_le
      rw [doomedOf_length] at h3
      have h4 : ((r.insertionSort entryLE).filter (fun q => !(survivorP r maxSize q))).length
          = (r.filter (fun q => !(survivorP r maxSize q))).length :=
        ((List.perm_insertionSort entryLE r).filter _).length_eq
      omega
    have hsumc : r.length = (r.filter (survivorP r maxSize)).length
        + (r.filter (fun q => !(survivorP r maxSize q))).length := by
      have h1 := List.length_eq_countP_add_countP (survivorP r maxSize) r
      rw [List.countP_eq_length_filter, List.countP_eq_length_filter] at h1
      have h2 : r.filter (fun a => decide ¬survivorP r maxSize a = true)
          = r.filter (fun q => !(survivorP r maxSize q)) := by
        refine List.filter_congr (fun x _ => ?_)
        cases h : survivorP r maxSize x <;> simp [h]
      rwa [h2] at h1
    omega

/-- Entries the size limit evicts are no newer than any retained entry. -/
theorem enforceSizeLimit_evicts_oldest (r : Region) (maxSize : Nat)
    (hwf : regionWF r) (p : String × CacheEntry) (hp : p ∈ r)
    (hpo : p ∉ enforceSizeLimit r maxSize) :
    ∀ q ∈ enforceSizeLimit r maxSize, p.2.timestamp ≤ q.2.timestamp := by
  by_cases hle : r.length ≤ maxSize
  · unfold enforceSizeLimit at hpo
    rw [if_pos hle] at hpo
    exact absurd hp hpo
  · unfold enforceSizeLimit at hpo ⊢
    rw [if_neg hle] at hpo ⊢
    intro q hq
    have hperm : (r.insertionSort entryLE).Perm r := List.perm_insertionSort entryLE r
    have hPp : survivorP r maxSize p = false := by
      by_contra hc
      rw [Bool.not_eq_false] at hc
      exact hpo (List.mem_filter.mpr ⟨hp, hc⟩)
    have hq' := List.mem_filter.mp hq
    obtain ⟨d, hd, hdk⟩ : ∃ d ∈ doomedOf r maxSize, (d.1 == p.1) = true := by
      have := hPp
      unfold survivorP at this
      rw [Bool.not_eq_false'] at this
      simpa only [List.any_eq_true] using this
    have hdr : d ∈ r := hperm.mem_iff.mp (List.mem_of_mem_take hd)
    have hdp : d = p := List.inj_on_of_nodup_map hwf hdr hp (by simpa using hdk)
    subst hdp
    have hqs : q ∈ r.insertionSort entryLE := hperm.mem_iff.mpr hq'.1
    have hqd : q ∉ doomedOf r maxSize := by
      intro hqd
      rw [doomed_not_survivor r maxSize q hqd] at hq'
      exact Bool.false_ne_true hq'.2
    have hqdrop : q ∈ (r.insertionSort entryLE).drop (r.length - maxSize) := by
      have hsplit := (List.take_append_drop (r.length - maxSize)
        (r.insertionSort entryLE)) ▸ hqs
      rcases List.mem_append.mp hsplit with h | h
      · exact absurd h hqd
      · exact h
    have hsort : List.Sorted entryLE (r.insertionSort entryLE) :=
      List.sorted_insertionSort entryLE r
    have hpair : List.Pairwise entryLE
        ((r.insertionSort entryLE).take (r.length - maxSize)
          ++ (r.insertionSort entryLE).drop (r.length - maxSize)) := by
      rw [List.take_append_drop]
      exact hsort
    exact (List.pairwise_append.mp hpair).2.2 d hd q hqdrop

/-- C5: a `set` is insertion, then expiry purge, then oldest-first size
enforcement; afterwards the region holds at most `maxSize` entries with
distinct keys, and every entry removed by the size cap is no newer than
any retained entry (oldest-`timestamp` eviction). -/
theorem claim5_size_bound_after_set (r : Region) (k : String) (v : PyVal)
    (ttl now maxSize : Nat) (hwf : regionWF r) :
    cacheSet r k v ttl now maxSize
        = enforceSizeLimit (cleanupExpired (regionInsert r k ⟨v, now, ttl, k⟩) now) maxSize
    ∧ (cacheSet r k v ttl now maxSize).length ≤ maxSize
    ∧ regionWF (cacheSet r k v ttl now maxSize)
    ∧ (∀ p ∈ cleanupExpired (regionInsert r k ⟨v, now, ttl, k⟩) now,
        p ∉ cacheSet r k v ttl now maxSize →
        ∀ q ∈ cacheSet r k v ttl now maxSize, p.2.timestamp ≤ q.2.timestamp) := by
  have hwf' : regionWF (cleanupExpired (regionInsert r k ⟨v, now, ttl, k⟩) now) :=
    regionWF_filter _ _ (regionWF_insert r k _ hwf)
  refine ⟨rfl, enforceSizeLimit_length_le _ _, ?_, ?_⟩
  · unfold cacheSet enforceSizeLimit
    split
    · exact hwf'
    · exact regionWF_filter _ _ hwf'
  · intro p hp hpo q hq
    exact enforceSizeLimit_evicts_oldest _ maxSize hwf' p hp hpo q hq

/-- C5 (witness): a region of two entries receiving a third with cap 2:
the oldest entry is evicted and the bound holds. -/
theorem claim5_size_bound_after_set_witness :
    cacheSet [("a", ⟨.int 1, 0, 50, "a"⟩), ("b", ⟨.int 2, 3, 50, "b"⟩)] "c" (.int 3) 50 4 2
        = enforceSizeLimit (cleanupExpired (regionInsert
            [("a", ⟨.int 1, 0, 50, "a"⟩), ("b", ⟨.int 2, 3, 50, "b"⟩)]
            "c" ⟨.int 3, 4, 50, "c"⟩) 4) 2
    ∧ (cacheSet [("a", ⟨.int 1, 0, 50, "a"⟩), ("b", ⟨.int 2, 3, 50, "b"⟩)]
        "c" (.int 3) 50 4 2).length ≤ 2
    ∧ regionWF (cacheSet [("a", ⟨.int 1, 0, 50, "a"⟩), ("b", ⟨.int 2, 3, 50, "b"⟩)]
        "c" (.int 3) 50 4 2)
    ∧ (∀ p ∈ cleanupExpired (regionInsert
            [("a", ⟨.int 1, 0, 50, "a"⟩), ("b", ⟨.int 2, 3, 50, "b"⟩)]
            "c" ⟨.int 3, 4, 50, "c"⟩) 4,
        p ∉ cacheSet [("a", ⟨.int 1, 0, 50, "a"⟩), ("b", ⟨.int 2, 3, 50, "b"⟩)]
            "c" (.int 3) 50 4 2 →
        ∀ q ∈ cacheSet [("a", ⟨.int 1, 0, 50, "a"⟩), ("b", ⟨.int 2, 3, 50, "b"⟩)]
            "c" (.int 3) 50 4 2, p.2.timestamp ≤ q.2.timestamp) :=
  claim5_size_bound_after_set
    [("a", ⟨.int 1, 0, 50, "a"⟩), ("b", ⟨.int 2, 3, 50, "b"⟩)]
    "c" (.int 3) 50 4 2 (by decide)

/-- The key `scraper.get` uses for the global forbidden circuit-breaker
marker. -/
def forbidden_key : String := "forbidden_error_cache"

/-- `CacheManager.max_memory_entries`. -/
def max_memory_entries : Nat := 1000

/-- The exception classes of `exceptions.py` that the fetch layers raise,
by kind; message strings are elided.  `threadLimitError` subclasses
`rateLimitError` in the source (`ThreadLimitError(RateLimitError)`). -/
inductive ErrKind where
  | scraperError
  | networkError
  | forbiddenError
  | rateLimitError
  | threadLimitError
  | badRequestError
  | apiClosedError
  | apiFullyClosedError
  | softwareBlacklistedError
  | tooManyUnrecognizedError
deriving DecidableEq, Repr

/-- Whether a raised exception is caught by `except exceptions.RateLimitError`:
`RateLimitError` itself or its subclass `ThreadLimitError`. -/
def ErrKind.isRateLimit : ErrKind → Bool
  | .rateLimitError => true
  | .threadLimitError => true
  | _ => false

/-- One transport attempt's outcome as `requests` reports it to
`scraper.get`: a body (possibly empty) on HTTP success, or one of the
exception classes of the `except` chain.  `httpError s` is
`raise_for_status` failing with status `s`. -/
inductive Transport where
  | success (body : List Nat)
  | timeout
  | httpError (status : Nat)
  | connectionError
  | requestException
  | otherException
deriving DecidableEq, Repr

/-- What one iteration of the retry loop in `scraper.get` does with an
attempt's outcome. -/
inductive AttemptResult where
  | ok (body : List Nat)
  | fatal (k : ErrKind)
  | fatalForbidden
  | retryable (k : ErrKind)
deriving DecidableEq, Repr

/-- Embeds the `try`/`except` chain of one iteration of `scraper.get`.
An empty success body makes the code raise
`NetworkError("Empty response received")` inside the `try`; that raise is
not a `requests` exception, so it is caught by the final
`except Exception` clause and recorded as a retryable
`ScraperError("Unexpected error fetching ...")` — it is not surfaced
immediately.  403 both writes the forbidden marker and raises.  The
statuses 400, 401, 404, 423, 426, 429, 430, 431 and client errors raise
immediately; timeouts, connection errors, other request exceptions and
5xx statuses are recorded as retryable. -/
def classifyAttempt : Transport → AttemptResult
  | .success body => if body = [] then .retryable .scraperError else .ok body
  | .timeout => .retryable .networkError
  | .httpError s =>
    if s = 400 then .fatal .badRequestError
    else if s = 401 then .fatal .apiClosedError
    else if s = 403 then .fatalForbidden
    else if s = 404 then .fatal .scraperError
    else if s = 423 then .fatal .apiFullyClosedError
    else if s = 426 then .fatal .softwareBlacklistedError
    else if s = 429 then .fatal .threadLimitError
    else if s = 430 then .fatal .rateLimitError
    else if s = 431 then .fatal .tooManyUnrecognizedError
    else if 500 ≤ s then .retryable .networkError
    else .fatal .scraperError
  | .connectionError => .retryable .networkError
  | .requestException => .retryable .networkError
  | .otherException => .retryable .scraperError

/-- The observable effects of one `scraper.get` call: the memory cache
region and stats it threads, the injected back-off sleeps in order, and
how many transport attempts were issued. -/
structure FetchLog where
  cache : Region
  stats : CacheStats
  sleeps : List Nat
  calls : Nat
deriving DecidableEq, Repr

/-- Truthiness of `cache_manager.get(...)`'s return value (`None` when
absent). -/
def optTruthy : Option PyVal → Bool
  | Option.some v => v.truthy
  | Option.none => false

/-- Embeds `for attempt in range(max_retries + 1)` of `scraper.get`,
given the list of remaining attempt indices.  A retryable failure is
kept in `last` and, when `attempt < max_retries`, preceded on the next
attempt by a sleep of `min(2**attempt, 10)`.  On exhaustion the last
retryable exception is raised (or `NetworkError` if none was recorded). -/
def getLoop (oracle : Nat → Transport) (maxRetries now : Nat) :
    List Nat → Option ErrKind → FetchLog → Except ErrKind (List Nat) × FetchLog
  | [], last, st => (Except.error (last.getD .networkError), st)
  | attempt :: rest, _last, st =>
    let st1 : FetchLog := { st with calls := st.calls + 1 }
    match classifyAttempt (oracle attempt) with
    | .ok body => (Except.ok body, st1)
    | .fatal k => (Except.error k, st1)
    | .fatalForbidden =>
        (Except.error .forbiddenError,
          { st1 with
              cache := cacheSet st1.cache forbidden_key (.bool true) 300 now
                max_memory_entries })
    | .retryable k =>
        getLoop oracle maxRetries now rest (Option.some k)
          (if attempt < maxRetries
            then { st1 with sleeps := st1.sleeps ++ [min (2 ^ attempt) 10] }
            else st1)

/-- Embeds `scraper.get(url, max_retries, timeout)`: first the
circuit-breaker pre-check on the forbidden marker (raising
`ForbiddenError` with no transport call when its cached value is truthy),
then the retry loop over attempts `0 .. max_retries`. -/
def scraper_get (oracle : Nat → Transport) (maxRetries now : Nat)
    (cache : Region) (stats : CacheStats) :
    Except ErrKind (List Nat) × FetchLog :=
  let pre := cacheGet cache stats forbidden_key now
  if optTruthy pre.1 then
    (Except.error .forbiddenError, ⟨pre.2.1, pre.2.2, [], 0⟩)
  else
    getLoop oracle maxRetries now (List.range (maxRetries + 1)) Option.none
      ⟨pre.2.1, pre.2.2, [], 0⟩

/-- The retry loop issues at most one transport call per remaining
attempt index. -/
theorem getLoop_calls_le (oracle : Nat → Transport) (maxRetries now : Nat) :
    ∀ (l : List Nat) (last : Option ErrKind) (st : FetchLog),
      ((getLoop oracle maxRetries now l last st).2).calls ≤ st.calls + l.length := by
  intro l
  induction l with
  | nil => intro _ st; simp [getLoop]
  | cons a rest ih =>
    intro last st
    rw [getLoop]
    cases hc : classifyAttempt (oracle a) with
    | ok body => simp
    | fatal k => simp
    | fatalForbidden => simp
    | retryable k =>
      simp only [List.length_cons]
      split
      · exact Nat.le_trans (ih (Option.some k) _)
          (by show st.calls + 1 + rest.length ≤ st.calls + (rest.length + 1); omega)
      · exact Nat.le_trans (ih (Option.some k) _)
          (by show st.calls + 1 + rest.length ≤ st.calls + (rest.length + 1); omega)

/-- C1: while the global forbidden suppression marker (key
`"forbidden_error_cache"`, value `True` as the 403 handler writes it) is
present and unexpired, `scraper.get` fails immediately with
`ForbiddenError` and issues zero transport calls, for any `now` within
the marker's TTL. -/
theorem claim1_forbidden_suppression (oracle : Nat → Transport)
    (maxRetries now : Nat) (cache : Region) (stats : CacheStats)
    (e : CacheEntry)
    (hmark : regionLookup cache forbidden_key = Option.some e)
    (hval : e.data = .bool true)
    (hunexp : now ≤ e.timestamp + e.ttl) :
    (scraper_get oracle maxRetries now cache stats).1
        = Except.error .forbiddenError
    ∧ (scraper_get oracle maxRetries now cache stats).2.calls = 0
    ∧ (scraper_get oracle maxRetries now cache stats).2.sleeps = [] := by
  have hb : e.is_expired now = false := by
    simp only [CacheEntry.is_expired, decide_eq_false_iff_not, Nat.not_lt]
    omega
  have hget : cacheGet cache stats forbidden_key now
      = (Option.some e.data, cache, { stats with hits := stats.hits + 1 }) := by
    rw [cacheGet_of_lookup stats now hmark, if_neg]
    simp [hb]
  refine ⟨?_, ?_, ?_⟩ <;> simp [scraper_get, hget, optTruthy, hval, PyVal.truthy]

/-- C1 (witness): a fresh truthy marker written at time 0 with TTL 300,
read at time 250. -/
theorem claim1_forbidden_suppression_witness :
    (scraper_get (fun _ => .timeout) 3 250
        [(forbidden_key, ⟨.bool true, 0, 300, forbidden_key⟩)] ⟨0, 0, 0⟩).1
        = Except.error .forbiddenError
    ∧ (scraper_get (fun _ => .timeout) 3 250
        [(forbidden_key, ⟨.bool true, 0, 300, forbidden_key⟩)] ⟨0, 0, 0⟩).2.calls = 0
    ∧ (scraper_get (fun _ => .timeout) 3 250
        [(forbidden_key, ⟨.bool true, 0, 300, forbidden_key⟩)] ⟨0, 0, 0⟩).2.sleeps = [] :=
  claim1_forbidden_suppression (fun _ => .timeout) 3 250
    [(forbidden_key, ⟨.bool true, 0, 300, forbidden_key⟩)] ⟨0, 0, 0⟩
    ⟨.bool true, 0, 300, forbidden_key⟩ rfl rfl (by decide)

/-- C3: with `max_retries = 3` and every transport attempt failing with a
retryable kind, `scraper.get` issues exactly 4 transport attempts (and at
most 4 for any oracle), sleeps `min(2**attempt, 10)` before each
subsequent attempt — the sleeps are `[1, 2, 4]`, cumulative 7 — and then
surfaces the failure kind of the last attempt. -/
theorem claim3_backoff_bound (oracle : Nat → Transport) (now : Nat)
    (cache : Region) (stats : CacheStats) (k0 k1 k2 k3 : ErrKind)
    (hnomark : optTruthy (cacheGet cache stats forbidden_key now).1 = false)
    (h0 : classifyAttempt (oracle 0) = .retryable k0)
    (h1 : classifyAttempt (oracle 1) = .retryable k1)
    (h2 : classifyAttempt (oracle 2) = .retryable k2)
    (h3 : classifyAttempt (oracle 3) = .retryable k3) :
    (∀ oracle' : Nat → Transport,
      (scraper_get oracle' 3 now cache stats).2.calls ≤ 4)
    ∧ (scraper_get oracle 3 now cache stats).2.calls = 4
    ∧ (scraper_get oracle 3 now cache stats).2.sleeps = [1, 2, 4]
    ∧ (scraper_get oracle 3 now cache stats).2.sleeps.sum = 7
    ∧ (scraper_get oracle 3 now cache stats).1 = Except.error k3 := by
  have hrange : List.range (3 + 1) = [0, 1, 2, 3] := rfl
  have hbound : ∀ oracle' : Nat → Transport,
      (scraper_get oracle' 3 now cache stats).2.calls ≤ 4 := by
    intro oracle'
    unfold scraper_get
    rw [if_neg (by simp [hnomark])]
    have := getLoop_calls_le oracle' 3 now (List.range (3 + 1)) Option.none
      ⟨(cacheGet cache stats forbidden_key now).2.1,
        (cacheGet cache stats forbidden_key now).2.2, [], 0⟩
    simpa using this
  have hrun : scraper_get oracle 3 now cache stats
      = (Except.error k3,
          ⟨(cacheGet cache stats forbidden_key now).2.1,
            (cacheGet cache stats forbidden_key now).2.2, [1, 2, 4], 4⟩) := by
    unfold scraper_get
    rw [if_neg (by simp [hnomark])]
    rw [hrange]
    simp [getLoop, h0, h1, h2, h3]
  exact ⟨hbound, by rw [hrun], by rw [hrun], by rw [hrun]; rfl, by rw [hrun]⟩

/-- C3 (witness): every attempt times out. -/
theorem claim3_backoff_bound_witness :
    (∀ oracle' : Nat → Transport,
      (scraper_get oracle' 3 0 [] ⟨0, 0, 0⟩).2.calls ≤ 4)
    ∧ (scraper_get (fun _ => .timeout) 3 0 [] ⟨0, 0, 0⟩).2.calls = 4
    ∧ (scraper_get (fun _ => .timeout) 3 0 [] ⟨0, 0, 0⟩).2.sleeps = [1, 2, 4]
    ∧ ((scraper_get (fun _ => .timeout) 3 0 [] ⟨0, 0, 0⟩).2.sleeps.sum = 7)
    ∧ (scraper_get (fun _ => .timeout) 3 0 [] ⟨0, 0, 0⟩).1
        = Except.error .networkError :=
  claim3_backoff_bound (fun _ => .timeout) 0 [] ⟨0, 0, 0⟩
    .networkError .networkError .networkError .networkError
    rfl rfl rfl rfl rfl

/-- C7 (code bug evaluation): a transport that always succeeds at the
HTTP level with an empty body.  The claim (and the spec) say the call
fails with the `Malformed` kind with no retry; the code instead raises
`NetworkError("Empty response received")` inside its own `try`, which the
final `except Exception` clause swallows into a retryable
`ScraperError("Unexpected error fetching ...")` — so all 4 attempts are
issued with back-off sleeps `[1, 2, 4]`, and what surfaces is
`ScraperError`, not the raised `NetworkError`. -/
theorem claim7_empty_body_is_retried :
    (scraper_get (fun _ => .success []) 3 0 [] ⟨0, 0, 0⟩).1
        = Except.error .scraperError
    ∧ (scraper_get (fun _ => .success []) 3 0 [] ⟨0, 0, 0⟩).2.calls = 4
    ∧ (scraper_get (fun _ => .success []) 3 0 [] ⟨0, 0, 0⟩).2.sleeps = [1, 2, 4]
    ∧ classifyAttempt (.success []) = .retryable .scraperError :=
  ⟨rfl, rfl, rfl, rfl⟩

/-- Whether a suppression marker under key `k` is observable in region
`r` at time `t`: an entry is stored, it is unexpired at `t`, and its
value is truthy (the check the fetch layers perform). -/
def markerLive (r : Region) (k : String) (t : Nat) : Bool :=
  match regionLookup r k with
  | Option.some e => !(e.is_expired t) && e.data.truthy
  | Option.none => false

/-- Looking a key up after erasing `k` sees `k` gone and every other key
unchanged. -/
theorem regionLookup_erase (r : Region) (k k' : String) :
    regionLookup (regionErase r k) k'
      = if k' = k then Option.none else regionLookup r k' := by
  induction r with
  | nil => simp [regionErase, regionLookup]
  | cons p rest ih =>
    by_cases hpk : p.1 = k
    · have h1 : regionErase (p :: rest) k = regionErase rest k := by
        simp [regionErase, List.filter_cons, hpk]
      rw [h1, ih]
      by_cases hk : k' = k
      · simp [hk]
      · have h2 : regionLookup (p :: rest) k' = regionLookup rest k' := by
          have hb : (p.1 == k') = false := by
            rw [hpk]
            simp only [beq_eq_false_iff_ne, ne_eq]
            exact fun hc => hk hc.symm
          simp [regionLookup, List.find?_cons, hb]
        simp [hk, h2]
    · have h1 : regionErase (p :: rest) k = p :: regionErase rest k := by
        simp [regionErase, List.filter_cons, hpk]
      rw [h1]
      by_cases hpk' : p.1 = k'
      · have hk : ¬ (k' = k) := fun hc => hpk (hpk'.trans hc)
        simp [regionLookup, List.find?_cons, hpk', hk]
      · have h2 : (p.1 == k') = false := by simp [hpk']
        have h3 : regionLookup (p :: regionErase rest k) k'
            = regionLookup (regionErase rest k) k' := by
          simp [regionLookup, List.find?_cons, h2]
        have h4 : regionLookup (p :: rest) k' = regionLookup rest k' := by
          simp [regionLookup, List.find?_cons, h2]
        rw [h3, h4, ih]

/-- Reading any key with `CacheManager.get` leaves the observable marker
state at every present-or-future instant unchanged: the only mutation a
read performs is deleting an entry that is already expired. -/
theorem cacheGet_markerLive (r : Region) (s : CacheStats) (k : String)
    (now t : Nat) (k' : String) (ht : now ≤ t) :
    markerLive ((cacheGet r s k now).2.1) k' t = markerLive r k' t := by
  unfold cacheGet
  cases hl : regionLookup r k with
  | none => rfl
  | some e =>
    by_cases hexp : e.is_expired now
    · simp only [hexp, if_true]
      unfold markerLive
      rw [regionLookup_erase]
      by_cases hk : k' = k
      · subst hk
        rw [if_pos rfl, hl]
        have hexp' : e.is_expired t = true := by
          simp only [CacheEntry.is_expired, decide_eq_true_eq] at hexp ⊢
          omega
        simp [hexp']
      · rw [if_neg hk]
    · simp [hexp]

/-- When `CacheManager.get` returns a truthy value the region is left
untouched. -/
theorem cacheGet_truthy_region_eq (r : Region) (s : CacheStats) (k : String)
    (now : Nat) (h : optTruthy (cacheGet r s k now).1 = true) :
    (cacheGet r s k now).2.1 = r := by
  unfold cacheGet at h ⊢
  cases hl : regionLookup r k with
  | none => rfl
  | some e =>
    rw [hl] at h
    by_cases hexp : e.is_expired now
    · simp [hexp, optTruthy] at h
    · simp [hexp]

/-- The `except` chain never records `ForbiddenError` as a retryable
failure: retryable kinds are only `ScraperError` and `NetworkError`. -/
theorem classifyAttempt_retryable_kind (t : Transport) (k : ErrKind)
    (h : classifyAttempt t = .retryable k) :
    k = .scraperError ∨ k = .networkError := by
  cases t <;> simp only [classifyAttempt] at h <;> (try split_ifs at h) <;> simp_all

/-- An immediately-raised (`fatal`) status is never classified as
`ForbiddenError`: the 403 case is the separate marker-writing branch. -/
theorem classifyAttempt_fatal_ne_forbidden (t : Transport) (k : ErrKind)
    (h : classifyAttempt t = .fatal k) : k ≠ .forbiddenError := by
  cases t <;> simp only [classifyAttempt] at h <;> (try split_ifs at h) <;>
    simp_all <;> exact fun hc => ErrKind.noConfusion (h.trans hc)

/-- Unfolding of one loop iteration whose attempt succeeds with a
non-empty body. -/
theorem getLoop_step_ok (oracle : Nat → Transport) (maxRetries now a : Nat)
    (rest : List Nat) (last : Option ErrKind) (st : FetchLog) (body : List Nat)
    (h : classifyAttempt (oracle a) = .ok body) :
    getLoop oracle maxRetries now (a :: rest) last st
      = (Except.ok body, { st with calls := st.calls + 1 }) := by
  rw [getLoop, h]

/-- Unfolding of one loop iteration whose attempt raises immediately. -/
theorem getLoop_step_fatal (oracle : Nat → Transport) (maxRetries now a : Nat)
    (rest : List Nat) (last : Option ErrKind) (st : FetchLog) (k : ErrKind)
    (h : classifyAttempt (oracle a) = .fatal k) :
    getLoop oracle maxRetries now (a :: rest) last st
      = (Except.error k, { st with calls := st.calls + 1 }) := by
  rw [getLoop, h]

/-- Unfolding of one loop iteration whose attempt hits a 403: write the
forbidden marker, then raise. -/
theorem getLoop_step_forbidden (oracle : Nat → Transport) (maxRetries now a : Nat)
    (rest : List Nat) (last : Option ErrKind) (st : FetchLog)
    (h : classifyAttempt (oracle a) = .fatalForbidden) :
    getLoop oracle maxRetries now (a :: rest) last st
      = (Except.error .forbiddenError,
          ⟨cacheSet st.cache forbidden_key (.bool true) 300 now max_memory_entries,
            st.stats, st.sleeps, st.calls + 1⟩) := by
  rw [getLoop, h]

/-- Unfolding of one loop iteration whose attempt fails retryably. -/
theorem getLoop_step_retryable (oracle : Nat → Transport) (maxRetries now a : Nat)
    (rest : List Nat) (last : Option ErrKind) (st : FetchLog) (k : ErrKind)
    (h : classifyAttempt (oracle a) = .retryable k) :
    getLoop oracle maxRetries now (a :: rest) last st
      = getLoop oracle maxRetries now rest (Option.some k)
          (if a < maxRetries
            then ⟨st.cache, st.stats, st.sleeps ++ [min (2 ^ a) 10], st.calls + 1⟩
            else ⟨st.cache, st.stats, st.sleeps, st.calls + 1⟩) := by
  rw [getLoop, h]

/-- Within the retry loop, the cache region is mutated exactly when a
403 is observed: then the final region is the starting one with the
forbidden marker (value `True`, TTL 300) written through
`CacheManager.set`; every other outcome leaves the region untouched. -/
theorem getLoop_marker (oracle : Nat → Transport) (maxRetries now : Nat) :
    ∀ (l : List Nat) (last : Option ErrKind) (st : FetchLog),
      last ≠ Option.some .forbiddenError →
      (((getLoop oracle maxRetries now l last st).1 ≠ Except.error .forbiddenError →
          (getLoop oracle maxRetries now l last st).2.cache = st.cache)
        ∧ ((getLoop oracle maxRetries now l last st).1 = Except.error .forbiddenError →
          (getLoop oracle maxRetries now l last st).2.cache
            = cacheSet st.cache forbidden_key (.bool true) 300 now max_memory_entries)) := by
  intro l
  induction l with
  | nil =>
    intro last st hlast
    have hne : (getLoop oracle maxRetries now [] last st).1
        ≠ Except.error .forbiddenError := by
      cases last with
      | none => simp [getLoop]
      | some k =>
        simp only [getLoop, Option.getD]
        intro hc
        exact hlast (by injection hc with h'; rw [h'])
    exact ⟨fun _ => rfl, fun hc => absurd hc hne⟩
  | cons a rest ih =>
    intro last st hlast
    cases hc : classifyAttempt (oracle a) with
    | ok body =>
      rw [getLoop_step_ok oracle maxRetries now a rest last st body hc]
      exact ⟨fun _ => rfl, fun hcon => by simp at hcon⟩
    | fatal k =>
      rw [getLoop_step_fatal oracle maxRetries now a rest last st k hc]
      refine ⟨fun _ => rfl, fun hcon => ?_⟩
      have hkf : k = .forbiddenError := by
        injection hcon with h'
      exact absurd hkf (classifyAttempt_fatal_ne_forbidden _ _ hc)
    | fatalForbidden =>
      rw [getLoop_step_forbidden oracle maxRetries now a rest last st hc]
      exact ⟨fun hcon => absurd rfl hcon, fun _ => rfl⟩
    | retryable k =>
      rw [getLoop_step_retryable oracle maxRetries now a rest last st k hc]
      have hk : Option.some k ≠ Option.some ErrKind.forbiddenError := by
        intro hcon
        rcases classifyAttempt_retryable_kind _ _ hc with h' | h' <;>
          (injection hcon with h''; rw [h'] at h''; exact ErrKind.noConfusion h'')
      split
      · exact ih (Option.some k) _ hk
      · exact ih (Option.some k) _ hk

/-- The key `get_game_data` uses for the per-caller quota suppression
marker: `f"quota_exceeded_{username}"`. -/
def quota_key (username : String) : String := "quota_exceeded_" ++ username

/-- Embeds the body of `scraper.get_game_data` around its network work:
the quota pre-check (raising `RateLimitError` with no call when a truthy
per-caller marker is cached), then the lookup/fallback work — abstracted
as `body`, a function of the memory region and stats it may thread — and
the `except RateLimitError` handler that writes the per-caller quota
marker (value `True`, TTL 600) before re-raising. -/
def get_game_data_inner (username : String) (now : Nat)
    (body : Region → CacheStats → Except ErrKind PyVal × Region × CacheStats)
    (mem : Region) (stats : CacheStats) :
    Except ErrKind PyVal × Region × CacheStats :=
  let pre := cacheGet mem stats (quota_key username) now
  if optTruthy pre.1 then
    (Except.error .rateLimitError, pre.2.1, pre.2.2)
  else
    match body pre.2.1 pre.2.2 with
    | (Except.error k, mem1, stats1) =>
      if k.isRateLimit then
        (Except.error k,
          cacheSet mem1 (quota_key username) (.bool true) 600 now max_memory_entries,
          stats1)
      else (Except.error k, mem1, stats1)
    | (Except.ok v, mem1, stats1) => (Except.ok v, mem1, stats1)

/-- C9: the fetch layers write a suppression marker only on the two
designated kinds.  (a) Cache reads never change the observable marker
state at any present-or-future instant.  (b) Any `scraper.get` outcome
other than `ForbiddenError` leaves the memory region exactly as the
pre-check read left it.  (c) A `ForbiddenError` outcome is either the
circuit-breaker pre-check firing (zero transport calls, region returned
untouched) or a 403 classification, which writes the global forbidden
marker, value `True`, TTL 300, before the error propagates.  (d) The
accessor's quota pre-check re-raises without writing.  (e) A
rate-limit-class error from the accessor's body writes the per-caller
marker `quota_exceeded_{username}`, value `True`, TTL 600, before
re-raising the same error.  (f)/(g) Every other body outcome of the
accessor leaves the region exactly as the body left it. -/
theorem claim9_suppression_marker_writes (oracle : Nat → Transport)
    (maxRetries now : Nat) (cache : Region) (stats : CacheStats)
    (username : String) (mem : Region) (mstats : CacheStats)
    (body : Region → CacheStats → Except ErrKind PyVal × Region × CacheStats) :
    (∀ (r : Region) (s : CacheStats) (k : String) (n t : Nat) (k' : String),
      n ≤ t → markerLive ((cacheGet r s k n).2.1) k' t = markerLive r k' t)
    ∧ ((scraper_get oracle maxRetries now cache stats).1
          ≠ Except.error .forbiddenError →
        (scraper_get oracle maxRetries now cache stats).2.cache
          = (cacheGet cache stats forbidden_key now).2.1)
    ∧ ((scraper_get oracle maxRetries now cache stats).1
          = Except.error .forbiddenError →
        ((scraper_get oracle maxRetries now cache stats).2.calls = 0
          ∧ (scraper_get oracle maxRetries now cache stats).2.cache = cache)
        ∨ (scraper_get oracle maxRetries now cache stats).2.cache
            = cacheSet (cacheGet cache stats forbidden_key now).2.1 forbidden_key
                (.bool true) 300 now max_memory_entries)
    ∧ (optTruthy (cacheGet mem mstats (quota_key username) now).1 = true →
        get_game_data_inner username now body mem mstats
          = (Except.error .rateLimitError,
              (cacheGet mem mstats (quota_key username) now).2.1,
              (cacheGet mem mstats (quota_key username) now).2.2))
    ∧ (∀ (k : ErrKind) (mem1 : Region) (stats1 : CacheStats),
        optTruthy (cacheGet mem mstats (quota_key username) now).1 = false →
        body (cacheGet mem mstats (quota_key username) now).2.1
            (cacheGet mem mstats (quota_key username) now).2.2
          = (Except.error k, mem1, stats1) →
        k.isRateLimit = true →
        get_game_data_inner username now body mem mstats
          = (Except.error k,
              cacheSet mem1 (quota_key username) (.bool true) 600 now
                max_memory_entries,
              stats1))
    ∧ (∀ (k : ErrKind) (mem1 : Region) (stats1 : CacheStats),
        optTruthy (cacheGet mem mstats (quota_key username) now).1 = false →
        body (cacheGet mem mstats (quota_key username) now).2.1
            (cacheGet mem mstats (quota_key username) now).2.2
          = (Except.error k, mem1, stats1) →
        k.isRateLimit = false →
        get_game_data_inner username now body mem mstats
          = (Except.error k, mem1, stats1))
    ∧ (∀ (v : PyVal) (mem1 : Region) (stats1 : CacheStats),
        optTruthy (cacheGet mem mstats (quota_key username) now).1 = false →
        body (cacheGet mem mstats (quota_key username) now).2.1
            (cacheGet mem mstats (quota_key username) now).2.2
          = (Except.ok v, mem1, stats1) →
        get_game_data_inner username now body mem mstats
          = (Except.ok v, mem1, stats1)) := by
  have hunfold : scraper_get oracle maxRetries now cache stats
      = if optTruthy (cacheGet cache stats forbidden_key now).1 then
          (Except.error .forbiddenError,
            ⟨(cacheGet cache stats forbidden_key now).2.1,
              (cacheGet cache stats forbidden_key now).2.2, [], 0⟩)
        else
          getLoop oracle maxRetries now (List.range (maxRetries + 1)) Option.none
            ⟨(cacheGet cache stats forbidden_key now).2.1,
              (cacheGet cache stats forbidden_key now).2.2, [], 0⟩ := rfl
  have hm := getLoop_marker oracle maxRetries now (List.range (maxRetries + 1))
    Option.none ⟨(cacheGet cache stats forbidden_key now).2.1,
      (cacheGet cache stats forbidden_key now).2.2, [], 0⟩ (by simp)
  refine ⟨fun r s k n t k' h => cacheGet_markerLive r s k n t k' h, ?_, ?_, ?_, ?_, ?_, ?_⟩
  · intro hne
    by_cases hpre : optTruthy (cacheGet cache stats forbidden_key now).1 = true
    · exfalso
      apply hne
      rw [hunfold, if_pos hpre]
    · rw [hunfold, if_neg hpre] at hne ⊢
      exact hm.1 hne
  · intro hf
    by_cases hpre : optTruthy (cacheGet cache stats forbidden_key now).1 = true
    · left
      constructor
      · rw [hunfold, if_pos hpre]
      · rw [hunfold, if_pos hpre]
        exact cacheGet_truthy_region_eq cache stats forbidden_key now hpre
    · right
      rw [hunfold, if_neg hpre] at hf ⊢
      exact hm.2 hf
  · intro h
    simp [get_game_data_inner, h]
  · intro k mem1 stats1 hpre hbody hrl
    simp [get_game_data_inner, hpre, hbody, hrl]
  · intro k mem1 stats1 hpre hbody hrl
    simp [get_game_data_inner, hpre, hbody, hrl]
  · intro v mem1 stats1 hpre hbody
    simp [get_game_data_inner, hpre, hbody]

/-- The methods the `CacheManager` class of `cache_manager.py` defines;
Python attribute lookup on the instance resolves against these.  There
is no `delete` — the only per-key removal operation is `invalidate`. -/
def cacheManagerMethods : List String :=
  ["__init__", "get_stats", "_generate_cache_key", "_cleanup_expired_entries",
   "_enforce_cache_size_limit", "get", "set", "_get_cache_dict",
   "_get_max_size", "_get_default_ttl", "invalidate", "clear",
   "save_to_disk", "load_from_disk", "save_all_caches"]

/-- Python-level outcome of `clear_rate_limit_cache`: a boolean return,
or an uncaught `AttributeError` from an attribute lookup that fails. -/
inductive PyOutcome where
  | ret (b : Bool)
  | attributeError
deriving DecidableEq, Repr

/-- Embeds `scraper.clear_rate_limit_cache(username)`: read the cached
per-caller quota marker; when its value is truthy the code calls
`cache_manager.delete(quota_key, "memory")` — if `CacheManager` defined
`delete` this would remove the entry and the function would return
`True`, but the attribute lookup raises `AttributeError`; with no truthy
marker the function returns `False`. -/
def clear_rate_limit_cache (username : String) (now : Nat) (mem : Region)
    (stats : CacheStats) : PyOutcome × Region × CacheStats :=
  let pre := cacheGet mem stats (quota_key username) now
  if optTruthy pre.1 then
    if "delete" ∈ cacheManagerMethods then
      (PyOutcome.ret true, regionErase pre.2.1 (quota_key username), pre.2.2)
    else (PyOutcome.attributeError, pre.2.1, pre.2.2)
  else (PyOutcome.ret false, pre.2.1, pre.2.2)

/-- C10: with an unexpired truthy per-caller quota marker present,
`clear_rate_limit_cache` raises `AttributeError` instead of removing the
marker and returning `True`, because `CacheManager` defines no `delete`
method (its removal operation is `invalidate`); the marker entry is left
stored, so it can only lapse by TTL. -/
theorem claim10_clear_rate_limit_attribute_error (username : String)
    (now : Nat) (mem : Region) (stats : CacheStats) (e : CacheEntry)
    (hmark : regionLookup mem (quota_key username) = Option.some e)
    (hval : e.data = .bool true)
    (hunexp : now ≤ e.timestamp + e.ttl) :
    ("delete" ∉ cacheManagerMethods ∧ "invalidate" ∈ cacheManagerMethods)
    ∧ (clear_rate_limit_cache username now mem stats).1 = PyOutcome.attributeError
    ∧ regionLookup (clear_rate_limit_cache username now mem stats).2.1
        (quota_key username) = Option.some e := by
  have hb : e.is_expired now = false := by
    simp only [CacheEntry.is_expired, decide_eq_false_iff_not, Nat.not_lt]
    omega
  have hget : cacheGet mem stats (quota_key username) now
      = (Option.some e.data, mem, { stats with hits := stats.hits + 1 }) := by
    rw [cacheGet_of_lookup stats now hmark, if_neg]
    simp [hb]
  have hdel : ("delete" ∈ cacheManagerMethods) = False := by
    simp [cacheManagerMethods]
  refine ⟨⟨by decide, by decide⟩, ?_, ?_⟩
  · simp [clear_rate_limit_cache, hget, optTruthy, hval, PyVal.truthy, hdel]
  · simp [clear_rate_limit_cache, hget, optTruthy, hval, PyVal.truthy, hdel, hmark]

/-- C10 (witness): the theorem at a one-entry region holding a fresh
quota marker for user `"u"`. -/
theorem claim10_clear_rate_limit_attribute_error_witness :
    ("delete" ∉ cacheManagerMethods ∧ "invalidate" ∈ cacheManagerMethods)
    ∧ (clear_rate_limit_cache "u" 100
        [(quota_key "u", ⟨.bool true, 0, 600, quota_key "u"⟩)] ⟨0, 0, 0⟩).1
        = PyOutcome.attributeError
    ∧ regionLookup (clear_rate_limit_cache "u" 100
        [(quota_key "u", ⟨.bool true, 0, 600, quota_key "u"⟩)] ⟨0, 0, 0⟩).2.1
        (quota_key "u") = Option.some ⟨.bool true, 0, 600, quota_key "u"⟩ :=
  claim10_clear_rate_limit_attribute_error "u" 100
    [(quota_key "u", ⟨.bool true, 0, 600, quota_key "u"⟩)] ⟨0, 0, 0⟩
    ⟨.bool true, 0, 600, quota_key "u"⟩ rfl rfl (by decide)

/-- Outcome of one worker (`_process_rom_with_monitoring`) as
`future.result()` reports it: a returned result dict (the worker catches
generic exceptions itself and returns `success: False`), or a re-raised
`ForbiddenError`/`RateLimitError`-family exception. -/
inductive RomOutcome where
  | done (success : Bool)
  | raised (k : ErrKind)
deriving DecidableEq, Repr

/-- Whether `future.result()` raises into the loop's
`except RateLimitError` clause (this also catches its subclass
`ThreadLimitError`). -/
def quotaEvent : RomOutcome → Bool
  | .raised k => k.isRateLimit
  | .done _ => false

/-- Whether the worker returned a dict (counted into `completed`). -/
def doneEvent : RomOutcome → Bool
  | .done _ => true
  | .raised _ => false

/-- Whether `future.result()` raises into `except ForbiddenError`. -/
def forbiddenEvent : RomOutcome → Bool
  | .raised k => !k.isRateLimit && k == .forbiddenError
  | .done _ => false

/-- Whether `future.result()` raises into the generic `except Exception`. -/
def otherRaisedEvent : RomOutcome → Bool
  | .raised k => !k.isRateLimit && !(k == .forbiddenError)
  | .done _ => false

/-- A submitted `concurrent.futures` future at the moment the loop acts
on the batch: not yet started, started, finished, or cancelled. -/
inductive FutureState where
  | pendingF
  | runningF
  | doneF
  | cancelledF
deriving DecidableEq, Repr

/-- `Future.cancel()`: succeeds exactly on a not-yet-started future;
a running or finished future is left to finish. -/
def cancelFuture : FutureState → FutureState
  | .pendingF => .cancelledF
  | s => s

/-- The `for remaining_future in future_to_rom: remaining_future.cancel()`
loop run on every submitted future. -/
def cancelAll (fs : List (String × FutureState)) : List (String × FutureState) :=
  fs.map (fun p => (p.1, cancelFuture p.2))

/-- What the `as_completed` loop of `_scrape_all_roms` tracks per batch. -/
structure BatchState where
  completed : Nat
  processedRoms : List String
  loggedForbidden : List String
  loggedErrors : List String
  quotaExceeded : Bool
deriving DecidableEq, Repr

/-- Embeds the `as_completed` result loop of `App._scrape_all_roms` over
the completion-ordered list of worker outcomes: a returned dict counts
into `completed`; a rate-limit exception sets `quota_exceeded`, cancels
every submitted future and breaks; a forbidden or generic exception is
logged per item and the loop continues. -/
def scrapeLoop :
    List (String × RomOutcome) → List (String × FutureState) → BatchState →
      BatchState × List (String × FutureState)
  | [], futures, s => (s, futures)
  | (rom, o) :: rest, futures, s =>
    match o with
    | .done _ =>
      scrapeLoop rest futures
        ⟨s.completed + 1, s.processedRoms ++ [rom], s.loggedForbidden,
          s.loggedErrors, s.quotaExceeded⟩
    | .raised k =>
      if k.isRateLimit then
        (⟨s.completed, s.processedRoms ++ [rom], s.loggedForbidden,
            s.loggedErrors, true⟩,
          cancelAll futures)
      else if k = .forbiddenError then
        scrapeLoop rest futures
          ⟨s.completed, s.processedRoms ++ [rom], s.loggedForbidden ++ [rom],
            s.loggedErrors, s.quotaExceeded⟩
      else
        scrapeLoop rest futures
          ⟨s.completed, s.processedRoms ++ [rom], s.loggedForbidden,
            s.loggedErrors ++ [rom], s.quotaExceeded⟩

/-- Full run of a quota-free completion sequence: every item is
processed, nothing is cancelled, failures are logged per item. -/
theorem scrapeLoop_no_quota :
    ∀ (events : List (String × RomOutcome)),
      (∀ p ∈ events, quotaEvent p.2 = false) →
      ∀ (futures : List (String × FutureState)) (s : BatchState),
      scrapeLoop events futures s
        = (⟨s.completed + (events.filter (fun p => doneEvent p.2)).length,
            s.processedRoms ++ events.map (·.1),
            s.loggedForbidden ++ (events.filter (fun p => forbiddenEvent p.2)).map (·.1),
            s.loggedErrors ++ (events.filter (fun p => otherRaisedEvent p.2)).map (·.1),
            s.quotaExceeded⟩, futures) := by
  intro events
  induction events with
  | nil => intro _ futures s; simp [scrapeLoop]
  | cons p rest ih =>
    intro h futures s
    obtain ⟨rom, o⟩ := p
    have hq : quotaEvent o = false := h (rom, o) (List.mem_cons_self _ _)
    have hrest : ∀ q ∈ rest, quotaEvent q.2 = false :=
      fun q hqr => h q (List.mem_cons_of_mem _ hqr)
    cases o with
    | done b =>
      rw [scrapeLoop, ih hrest]
      simp [doneEvent, forbiddenEvent, otherRaisedEvent, List.filter_cons]
      omega
    | raised k =>
      have hk : k.isRateLimit = false := by simpa [quotaEvent] using hq
      by_cases hf : k = .forbiddenError
      · subst hf
        rw [scrapeLoop]
        rw [if_neg (by simp [hk]), if_pos rfl, ih hrest]
        simp [doneEvent, forbiddenEvent, otherRaisedEvent, List.filter_cons, hk]
      · rw [scrapeLoop]
        rw [if_neg (by simp [hk]), if_neg hf, ih hrest]
        have hbne : (k == ErrKind.forbiddenError) = false := by
          simp [hf]
        simp [doneEvent, forbiddenEvent, otherRaisedEvent, List.filter_cons, hk, hbne]

/-- Full run of a completion sequence whose first rate-limit outcome sits
after a quota-free prefix: the loop consumes exactly the prefix and the
rate-limited item, sets the quota flag, cancels all futures, and never
touches the rest of the sequence. -/
theorem scrapeLoop_quota_halt :
    ∀ (pre : List (String × RomOutcome)),
      (∀ p ∈ pre, quotaEvent p.2 = false) →
      ∀ (rom : String) (kq : ErrKind) (post : List (String × RomOutcome))
        (futures : List (String × FutureState)) (s : BatchState),
      kq.isRateLimit = true →
      scrapeLoop (pre ++ (rom, .raised kq) :: post) futures s
        = (⟨s.completed + (pre.filter (fun p => doneEvent p.2)).length,
            s.processedRoms ++ pre.map (·.1) ++ [rom],
            s.loggedForbidden ++ (pre.filter (fun p => forbiddenEvent p.2)).map (·.1),
            s.loggedErrors ++ (pre.filter (fun p => otherRaisedEvent p.2)).map (·.1),
            true⟩, cancelAll futures) := by
  intro pre
  induction pre with
  | nil =>
    intro _ rom kq post futures s hk
    rw [List.nil_append, scrapeLoop, if_pos hk]
    simp
  | cons p rest ih =>
    intro h rom kq post futures s hk
    obtain ⟨r0, o0⟩ := p
    have hq : quotaEvent o0 = false := h (r0, o0) (List.mem_cons_self _ _)
    have hrest : ∀ q ∈ rest, quotaEvent q.2 = false :=
      fun q hqr => h q (List.mem_cons_of_mem _ hqr)
    cases o0 with
    | done b =>
      rw [List.cons_append, scrapeLoop, ih hrest rom kq post futures _ hk]
      simp [doneEvent, forbiddenEvent, otherRaisedEvent, List.filter_cons]
      omega
    | raised k =>
      have hkf : k.isRateLimit = false := by simpa [quotaEvent] using hq
      by_cases hf : k = .forbiddenError
      · subst hf
        rw [List.cons_append, scrapeLoop]
        rw [if_neg (by simp [hkf]), if_pos rfl, ih hrest rom kq post futures _ hk]
        simp [doneEvent, forbiddenEvent, otherRaisedEvent, List.filter_cons, hkf]
      · rw [List.cons_append, scrapeLoop]
        rw [if_neg (by simp [hkf]), if_neg hf, ih hrest rom kq post futures _ hk]
        have hbne : (k == ErrKind.forbiddenError) = false := by
          simp [hf]
        simp [doneEvent, forbiddenEvent, otherRaisedEvent, List.filter_cons, hkf, hbne]

/-- C2: batch halt semantics.  On a result carrying a rate-limit kind
after a quota-free prefix, the loop consumes no later result (nothing
further is dispatched), sets the quota flag and cancels all submitted
futures — `cancel()` turning exactly the not-yet-started ones into
cancelled while running and finished ones are left to finish.  On
forbidden results the batch continues: with no quota event every item is
processed, nothing is cancelled, and each forbidden item is recorded as
a per-item failure. -/
theorem claim2_quota_halts_forbidden_continues :
    (∀ (pre post : List (String × RomOutcome)) (rom : String) (kq : ErrKind)
        (futures : List (String × FutureState)) (s : BatchState),
      (∀ p ∈ pre, quotaEvent p.2 = false) → kq.isRateLimit = true →
      scrapeLoop (pre ++ (rom, .raised kq) :: post) futures s
          = scrapeLoop (pre ++ [(rom, .raised kq)]) futures s
      ∧ (scrapeLoop (pre ++ (rom, .raised kq) :: post) futures s).1.quotaExceeded
          = true
      ∧ (scrapeLoop (pre ++ (rom, .raised kq) :: post) futures s).2
          = cancelAll futures
      ∧ (scrapeLoop (pre ++ (rom, .raised kq) :: post) futures s).1.processedRoms
          = s.processedRoms ++ pre.map (·.1) ++ [rom])
    ∧ (∀ (events : List (String × RomOutcome))
        (futures : List (String × FutureState)) (s : BatchState),
      (∀ p ∈ events, quotaEvent p.2 = false) →
      (scrapeLoop events futures s).1.quotaExceeded = s.quotaExceeded
      ∧ (scrapeLoop events futures s).2 = futures
      ∧ (scrapeLoop events futures s).1.processedRoms
          = s.processedRoms ++ events.map (·.1)
      ∧ ∀ p ∈ events, p.2 = RomOutcome.raised .forbiddenError →
          p.1 ∈ (scrapeLoop events futures s).1.loggedForbidden)
    ∧ cancelFuture .pendingF = .cancelledF
    ∧ cancelFuture .runningF = .runningF
    ∧ cancelFuture .doneF = .doneF := by
  refine ⟨?_, ?_, rfl, rfl, rfl⟩
  · intro pre post rom kq futures s hpre hk
    have h1 := scrapeLoop_quota_halt pre hpre rom kq post futures s hk
    have h2 := scrapeLoop_quota_halt pre hpre rom kq [] futures s hk
    exact ⟨h1.trans h2.symm, by rw [h1], by rw [h1], by rw [h1]⟩
  · intro events futures s h
    have h1 := scrapeLoop_no_quota events h futures s
    refine ⟨by rw [h1], by rw [h1], by rw [h1], ?_⟩
    intro p hp hpf
    rw [h1]
    have hmem : p ∈ events.filter (fun q => forbiddenEvent q.2) := by
      rw [List.mem_filter]
      exact ⟨hp, by simp [forbiddenEvent, hpf, ErrKind.isRateLimit]⟩
    exact List.mem_append.mpr (Or.inr (List.mem_map.mpr ⟨p, hmem, rfl⟩))

/-- The cache-manager state a `@cached`-wrapped call threads: memory and
api regions plus stats. -/
structure CMState where
  mem : Region
  api : Region
  stats : CacheStats
deriving DecidableEq, Repr

/-- `CacheManager.max_api_entries`. -/
def max_api_entries : Nat := 500

/-- When `CacheManager.get` returns a stored value the region is left
untouched. -/
theorem cacheGet_some_region_eq (r : Region) (s : CacheStats) (k : String)
    (now : Nat) (v : PyVal) (h : (cacheGet r s k now).1 = Option.some v) :
    (cacheGet r s k now).2.1 = r := by
  unfold cacheGet at h ⊢
  cases hl : regionLookup r k with
  | none => rfl
  | some e =>
    rw [hl] at h
    by_cases hexp : e.is_expired now
    · simp [hexp] at h
    · simp [hexp]

/-- Embeds the `wrapper` of the `cached` decorator (`cache_manager.py`)
with `cache_type="api"`, as it wraps `get_game_data`: look the derived
key up; `if cached_result is not None: return cached_result` — so a
stored Python `None` does not short-circuit; on fall-through run the
wrapped function, cache its result with the given TTL, and return it
(exceptions propagate uncached).  `inner` is the wrapped function,
returning its result, the state it leaves, and how many network fetches
it performed. -/
def cachedCall (key : String) (ttl now : Nat)
    (inner : CMState → Except ErrKind PyVal × CMState × Nat)
    (st : CMState) : Except ErrKind PyVal × CMState × Nat :=
  let pre := cacheGet st.api st.stats key now
  let st1 : CMState := ⟨st.mem, pre.2.1, pre.2.2⟩
  let data := match pre.1 with
    | Option.some d => d
    | Option.none => PyVal.none
  if data ≠ PyVal.none then (Except.ok data, st1, 0)
  else
    match inner st1 with
    | (Except.ok v, st2, n) =>
      (Except.ok v,
        ⟨st2.mem, cacheSet st2.api key v ttl now max_api_entries, st2.stats⟩, n)
    | (Except.error k, st2, n) => (Except.error k, st2, n)

/-- C6 (counterexample): a wrapped operation whose result is Python
`None`.  The first call stores the result; the stored entry is present
and unexpired at the second call, yet the second call performs another
network fetch (count 1, not 0), because the wrapper's
`is not None` test treats the stored `None` as a miss. -/
theorem claim6_none_result_counterexample :
    regionLookup (cachedCall "k" 3600 0
        (fun st => (Except.ok PyVal.none, st, 1)) ⟨[], [], ⟨0, 0, 0⟩⟩).2.1.api "k"
      = Option.some ⟨PyVal.none, 0, 3600, "k"⟩
    ∧ (cachedCall "k" 3600 1 (fun st => (Except.ok PyVal.none, st, 1))
        (cachedCall "k" 3600 0 (fun st => (Except.ok PyVal.none, st, 1))
          ⟨[], [], ⟨0, 0, 0⟩⟩).2.1).2.2 = 1 :=
  ⟨rfl, rfl⟩

/-- C6 (amended): for a stored non-`None` result whose TTL has not
lapsed, a wrapped call returns exactly the cached value, performs zero
network fetches, and leaves both regions untouched — hence at most one
fetch per key while a non-`None` entry is live. -/
theorem claim6_memoization_non_none (key : String) (ttl now : Nat)
    (inner : CMState → Except ErrKind PyVal × CMState × Nat) (st : CMState)
    (v : PyVal) (hv : v ≠ PyVal.none)
    (hhit : (cacheGet st.api st.stats key now).1 = Option.some v) :
    (cachedCall key ttl now inner st).1 = Except.ok v
    ∧ (cachedCall key ttl now inner st).2.2 = 0
    ∧ (cachedCall key ttl now inner st).2.1.api = st.api
    ∧ (cachedCall key ttl now inner st).2.1.mem = st.mem := by
  have hreg : (cacheGet st.api st.stats key now).2.1 = st.api :=
    cacheGet_some_region_eq st.api st.stats key now v hhit
  refine ⟨?_, ?_, ?_, ?_⟩ <;> simp [cachedCall, hhit, hreg, hv]

/-- C6 (witness): a region holding an unexpired non-`None` entry; the
inner function would fetch once but is never consulted. -/
theorem claim6_memoization_non_none_witness :
    (cachedCall "k" 3600 10 (fun st => (Except.ok (.int 9), st, 1))
        ⟨[], [("k", ⟨.int 5, 0, 3600, "k"⟩)], ⟨0, 0, 0⟩⟩).1 = Except.ok (.int 5)
    ∧ (cachedCall "k" 3600 10 (fun st => (Except.ok (.int 9), st, 1))
        ⟨[], [("k", ⟨.int 5, 0, 3600, "k"⟩)], ⟨0, 0, 0⟩⟩).2.2 = 0
    ∧ (cachedCall "k" 3600 10 (fun st => (Except.ok (.int 9), st, 1))
        ⟨[], [("k", ⟨.int 5, 0, 3600, "k"⟩)], ⟨0, 0, 0⟩⟩).2.1.api
        = [("k", ⟨.int 5, 0, 3600, "k"⟩)]
    ∧ (cachedCall "k" 3600 10 (fun st => (Except.ok (.int 9), st, 1))
        ⟨[], [("k", ⟨.int 5, 0, 3600, "k"⟩)], ⟨0, 0, 0⟩⟩).2.1.mem = [] :=
  claim6_memoization_non_none "k" 3600 10 (fun st => (Except.ok (.int 9), st, 1))
    ⟨[], [("k", ⟨.int 5, 0, 3600, "k"⟩)], ⟨0, 0, 0⟩⟩ (.int 5) (by decide) rfl

/-- JSON string escaping of `json.dumps`, restricted to what the
theorems quantify over: a quote or backslash is escaped, any other
printable ASCII character stands for itself.  (Control and non-ASCII
`\u` escapes are elided; the injectivity results below only quantify
over identifier characters, which `json.dumps` leaves unescaped.) -/
def jsonEscapeChar (c : Char) : List Char :=
  if c = '"' then ['\\', '"']
  else if c = '\\' then ['\\', '\\']
  else [c]

/-- Escape a whole string body. -/
def jsonEscape (cs : List Char) : List Char :=
  (cs.map jsonEscapeChar).flatten

/-- Decimal digit character. -/
def digitChar (d : Nat) : Char := Char.ofNat (48 + d)

/-- Decimal representation of a natural number, as `str` and
`json.dumps` print it. -/
def natChars (n : Nat) : List Char :=
  if n = 0 then ['0'] else (Nat.digits 10 n).reverse.map digitChar

/-- Decimal representation of a Python int, negatives with a `-` sign. -/
def intChars : Int → List Char
  | .ofNat n => natChars n
  | .negSucc n => '-' :: natChars (n + 1)

/-- Serialization of one argument value by `json.dumps`. -/
def pyValJson : PyVal → List Char
  | .none => "null".data
  | .bool b => if b then "true".data else "false".data
  | .int n => intChars n
  | .str s => ['"'] ++ jsonEscape s.data ++ ['"']

/-- Items joined with the `", "` separator `json.dumps` uses. -/
def joinComma : List (List Char) → List Char
  | [] => []
  | [t] => t
  | t :: u :: ts => t ++ ',' :: ' ' :: joinComma (u :: ts)

/-- A serialized JSON array. -/
def jsonArray (xs : List (List Char)) : List Char :=
  '[' :: (joinComma xs ++ [']'])

/-- One `(key, value)` tuple of `sorted(kwargs.items())`, serialized by
`json.dumps` as a two-element array. -/
def kwItemJson (p : String × PyVal) : List Char :=
  jsonArray [pyValJson (.str p.1), pyValJson p.2]

/-- The serialized `kwargs` component: the sorted item list when the
dict is non-empty, the empty object otherwise. -/
def kwargsJson (kw : List (String × PyVal)) : List Char :=
  match kw with
  | [] => ['\x7b', '\x7d']
  | _ => jsonArray (kw.map kwItemJson)

/-- The comparison `sorted(kwargs.items())` runs: Python compares the
tuples, and since dict keys are distinct the key decides. -/
def kwLE (a b : String × PyVal) : Prop := a.1 ≤ b.1

instance : DecidableRel kwLE := fun a b => inferInstanceAs (Decidable (a.1 ≤ b.1))

instance : IsTotal (String × PyVal) kwLE := ⟨fun x y => le_total x.1 y.1⟩

instance : IsTrans (String × PyVal) kwLE := ⟨fun _ _ _ h1 h2 => le_trans h1 h2⟩

/-- The sort in `sorted(kwargs.items())`. -/
def sortKW (kw : List (String × PyVal)) : List (String × PyVal) :=
  kw.insertionSort kwLE

/-- Embeds the `key_string` of `CacheManager._generate_cache_key`:
`json.dumps` of the dict holding the positional arguments under
`"args"` and `sorted(kwargs.items())` (or the empty dict) under
`"kwargs"`, with `sort_keys=True` putting `"args"` first. -/
def key_string (args : List PyVal) (kw : List (String × PyVal)) : List Char :=
  ('\x7b' :: "\"args\": ".data) ++ jsonArray (args.map pyValJson)
    ++ ", \"kwargs\": ".data ++ kwargsJson (sortKW kw) ++ ['\x7d']

/-- The range of `abs(hash(s))` for CPython's 64-bit signed string
hash: `[0, 2^63]`. -/
def hashBound : Nat := 2 ^ 63 + 1

/-- Embeds `CacheManager._generate_cache_key`:
`str(abs(hash(key_string)))`.  CPython's string hash is seeded per
interpreter run, so it enters the model as the parameter `h`, an
arbitrary function into the range of `abs(hash(.))`. -/
def generate_cache_key (h : String → Fin hashBound) (args : List PyVal)
    (kw : List (String × PyVal)) : String :=
  toString (h (String.mk (key_string args kw))).val

/-- A character Python identifiers and realistic string arguments are
made of. -/
def identChar (c : Char) : Bool := c.isAlphanum || c == '_'

/-- The realistic argument space of the spec: small integers and
identifier-like strings. -/
def realisticArg : PyVal → Prop
  | .int _ => True
  | .str s => ∀ c ∈ s.data, identChar c = true
  | .bool _ => False
  | .none => False

/-- Facts about decimal digit characters. -/
theorem digitChar_facts : ∀ d < 10, (digitChar d).isDigit = true
    ∧ identChar (digitChar d) = true ∧ digitChar d ≠ ','
    ∧ digitChar d ≠ ' ' ∧ digitChar d ≠ '"' ∧ digitChar d ≠ '-'
    ∧ digitChar d ≠ '[' ∧ digitChar d ≠ ']' := by decide

/-- Digit characters are distinct for distinct digits. -/
theorem digitChar_inj : ∀ d < 10, ∀ e < 10, digitChar d = digitChar e → d = e := by
  decide

/-- Mapping `digitChar` over digit lists is injective. -/
theorem map_digitChar_inj : ∀ (l1 l2 : List Nat), (∀ d ∈ l1, d < 10) →
    (∀ d ∈ l2, d < 10) → l1.map digitChar = l2.map digitChar → l1 = l2 := by
  intro l1
  induction l1 with
  | nil =>
    intro l2 _ _ h
    cases l2 with
    | nil => rfl
    | cons e t2 => simp at h
  | cons d t ih =>
    intro l2 h1 h2 h
    cases l2 with
    | nil => simp at h
    | cons e t2 =>
      simp only [List.map_cons, List.cons.injEq] at h
      have hde : d = e := digitChar_inj d (h1 d (List.mem_cons_self _ _))
        e (h2 e (List.mem_cons_self _ _)) h.1
      rw [hde, ih t2 (fun x hx => h1 x (List.mem_cons_of_mem _ hx))
        (fun x hx => h2 x (List.mem_cons_of_mem _ hx)) h.2]

/-- Decimal representations are never empty. -/
theorem natChars_ne_nil (n : Nat) : natChars n ≠ [] := by
  unfold natChars
  split
  · simp
  · rename_i h
    have hd : Nat.digits 10 n ≠ [] := Nat.digits_ne_nil_iff_ne_zero.mpr h
    simp [hd]

/-- Every character of a decimal representation is a digit character. -/
theorem natChars_mem (n : Nat) : ∀ c ∈ natChars n, c.isDigit = true
    ∧ identChar c = true ∧ c ≠ ',' ∧ c ≠ ' ' ∧ c ≠ '"' ∧ c ≠ '-'
    ∧ c ≠ '[' ∧ c ≠ ']' := by
  intro c hc
  unfold natChars at hc
  split at hc
  · simp at hc
    subst hc
    decide
  · rw [List.mem_map] at hc
    obtain ⟨d, hd, rfl⟩ := hc
    exact digitChar_facts d
      (Nat.digits_lt_base (by norm_num) (List.mem_reverse.mp hd))

/-- Decimal representation is injective on naturals. -/
theorem natChars_inj : ∀ m n : Nat, natChars m = natChars n → m = n := by
  have key : ∀ n : Nat, n ≠ 0 → natChars n ≠ ['0'] := by
    intro n hn hc
    unfold natChars at hc
    rw [if_neg hn] at hc
    have hlen : (Nat.digits 10 n).length = 1 := by
      have := congrArg List.length hc
      simpa using this
    obtain ⟨d, hd⟩ := List.length_eq_one.mp hlen
    rw [hd] at hc
    simp only [List.reverse_cons, List.reverse_nil, List.nil_append,
      List.map_cons, List.map_nil, List.cons.injEq] at hc
    have hd10 : d < 10 := Nat.digits_lt_base (by norm_num)
      (by rw [hd]; exact List.mem_singleton_self d)
    have hd0 : d = 0 := digitChar_inj d hd10 0 (by norm_num) (by
      have : digitChar 0 = '0' := by decide
      rw [this, hc.1])
    have := Nat.ofDigits_digits 10 n
    rw [hd, hd0] at this
    simp [Nat.ofDigits] at this
    exact hn this.symm
  intro m n h
  by_cases hm : m = 0 <;> by_cases hn : n = 0
  · rw [hm, hn]
  · subst hm
    exfalso
    apply key n hn
    rw [← h]
    rfl
  · subst hn
    exfalso
    apply key m hm
    rw [h]
    rfl
  · unfold natChars at h
    rw [if_neg hm, if_neg hn] at h
    have hrev : (Nat.digits 10 m).reverse = (Nat.digits 10 n).reverse :=
      map_digitChar_inj _ _
        (fun d hd => Nat.digits_lt_base (by norm_num) (List.mem_reverse.mp hd))
        (fun d hd => Nat.digits_lt_base (by norm_num) (List.mem_reverse.mp hd)) h
    have hdig : Nat.digits 10 m = Nat.digits 10 n := List.reverse_injective hrev
    have h2 := congrArg (Nat.ofDigits 10) hdig
    rwa [Nat.ofDigits_digits, Nat.ofDigits_digits] at h2

/-- Every character of a Python int's representation is a digit or the
minus sign — never a separator, quote or bracket. -/
theorem intChars_mem (i : Int) : ∀ c ∈ intChars i,
    c ≠ ',' ∧ c ≠ ' ' ∧ c ≠ '"' ∧ c ≠ '[' ∧ c ≠ ']' := by
  intro c hc
  cases i with
  | ofNat n =>
    have := natChars_mem n c hc
    exact ⟨this.2.2.1, this.2.2.2.1, this.2.2.2.2.1,
      this.2.2.2.2.2.2.1, this.2.2.2.2.2.2.2⟩
  | negSucc n =>
    rcases List.mem_cons.mp hc with h | h
    · subst h
      decide
    · have := natChars_mem (n + 1) c h
      exact ⟨this.2.2.1, this.2.2.2.1, this.2.2.2.2.1,
        this.2.2.2.2.2.2.1, this.2.2.2.2.2.2.2⟩

/-- Int representations are never empty. -/
theorem intChars_ne_nil (i : Int) : intChars i ≠ [] := by
  cases i with
  | ofNat n => exact natChars_ne_nil n
  | negSucc n => simp [intChars]

/-- Decimal representation is injective on Python ints. -/
theorem intChars_inj : ∀ i j : Int, intChars i = intChars j → i = j := by
  intro i j h
  cases i with
  | ofNat m =>
    cases j with
    | ofNat n => exact congrArg Int.ofNat (natChars_inj m n h)
    | negSucc n =>
      exfalso
      have h' : natChars m = '-' :: natChars (n + 1) := h
      have hmem : '-' ∈ natChars m := by
        rw [h']
        exact List.mem_cons_self _ _
      exact (natChars_mem m '-' hmem).2.2.2.2.2.1 rfl
  | negSucc m =>
    cases j with
    | ofNat n =>
      exfalso
      have h' : '-' :: natChars (m + 1) = natChars n := h
      have hmem : '-' ∈ natChars n := by
        rw [← h']
        exact List.mem_cons_self _ _
      exact (natChars_mem n '-' hmem).2.2.2.2.2.1 rfl
    | negSucc n =>
      have h' : '-' :: natChars (m + 1) = '-' :: natChars (n + 1) := h
      simp only [List.cons.injEq] at h'
      have h2 := natChars_inj (m + 1) (n + 1) h'.2
      have hmn : m = n := by omega
      rw [hmn]

/-- Identifier characters are not JSON syntax characters. -/
theorem identChar_not_special (c : Char) (h : identChar c = true) :
    c ≠ '"' ∧ c ≠ '\\' ∧ c ≠ ',' ∧ c ≠ ' ' ∧ c ≠ '[' ∧ c ≠ ']' := by
  refine ⟨?_, ?_, ?_, ?_, ?_, ?_⟩ <;> (intro hc; subst hc; revert h; decide)

/-- On identifier characters `json.dumps` escaping is the identity. -/
theorem jsonEscape_ident : ∀ cs : List Char,
    (∀ c ∈ cs, identChar c = true) → jsonEscape cs = cs := by
  intro cs
  induction cs with
  | nil => intro _; rfl
  | cons c t ih =>
    intro h
    have hc := identChar_not_special c (h c (List.mem_cons_self _ _))
    have h1 : jsonEscapeChar c = [c] := by
      unfold jsonEscapeChar
      rw [if_neg hc.1, if_neg hc.2.1]
    have h2 := ih (fun x hx => h x (List.mem_cons_of_mem _ hx))
    unfold jsonEscape at h2 ⊢
    rw [List.map_cons, List.flatten_cons, h1, h2]
    rfl

/-- Serialized values are never empty. -/
theorem pyValJson_ne_nil (v : PyVal) : pyValJson v ≠ [] := by
  cases v with
  | int n => exact intChars_ne_nil n
  | str s => simp [pyValJson]
  | bool b => cases b <;> decide
  | none => decide

/-- A realistic value's serialization contains no separator characters. -/
theorem pyValJson_no_sep (v : PyVal) (hv : realisticArg v) :
    ∀ c ∈ pyValJson v, c ≠ ',' ∧ c ≠ ' ' := by
  cases v with
  | none => exact hv.elim
  | bool b => exact hv.elim
  | int n =>
    intro c hc
    have hf := intChars_mem n c hc
    exact ⟨hf.1, hf.2.1⟩
  | str s =>
    intro c hc
    have hc' : c ∈ '"' :: (jsonEscape s.data ++ ['"']) := hc
    rw [jsonEscape_ident s.data hv] at hc'
    rcases List.mem_cons.mp hc' with h | h
    · subst h
      exact ⟨by decide, by decide⟩
    · rcases List.mem_append.mp h with h2 | h2
      · have hf := identChar_not_special c (hv c h2)
        exact ⟨hf.2.2.1, hf.2.2.2.1⟩
      · simp only [List.mem_singleton] at h2
        subst h2
        exact ⟨by decide, by decide⟩

/-- Serialization is injective on realistic values. -/
theorem pyValJson_inj (v w : PyVal) (hv : realisticArg v) (hw : realisticArg w)
    (h : pyValJson v = pyValJson w) : v = w := by
  cases v with
  | none => exact hv.elim
  | bool b => exact hv.elim
  | int m =>
    cases w with
    | none => exact hw.elim
    | bool b => exact hw.elim
    | int n => exact congrArg PyVal.int (intChars_inj m n h)
    | str s =>
      exfalso
      have h' : intChars m = '"' :: (jsonEscape s.data ++ ['"']) := h
      have hmem : '"' ∈ intChars m := by
        rw [h']
        exact List.mem_cons_self _ _
      exact (intChars_mem m '"' hmem).2.2.1 rfl
  | str s =>
    cases w with
    | none => exact hw.elim
    | bool b => exact hw.elim
    | int n =>
      exfalso
      have h' : '"' :: (jsonEscape s.data ++ ['"']) = intChars n := h
      have hmem : '"' ∈ intChars n := by
        rw [← h']
        exact List.mem_cons_self _ _
      exact (intChars_mem n '"' hmem).2.2.1 rfl
    | str t =>
      have h' : '"' :: (jsonEscape s.data ++ ['"'])
          = '"' :: (jsonEscape t.data ++ ['"']) := h
      simp only [List.cons.injEq, true_and] at h'
      rw [jsonEscape_ident s.data hv, jsonEscape_ident t.data hw] at h'
      have hdata : s.data = t.data := List.append_cancel_right h'
      cases s
      cases t
      simp only at hdata
      rw [hdata]

/-- Splitting a concatenation at the first occurrence of a character is
unambiguous when the prefixes are free of it. -/
theorem split_at_sep (x : Char) : ∀ (a b r1 r2 : List Char), (∀ c ∈ a, c ≠ x) →
    (∀ c ∈ b, c ≠ x) → a ++ x :: r1 = b ++ x :: r2 → a = b ∧ r1 = r2 := by
  intro a
  induction a with
  | nil =>
    intro b r1 r2 _ hb h
    cases b with
    | nil =>
      simp only [List.nil_append, List.cons.injEq] at h
      exact ⟨rfl, h.2⟩
    | cons d b' =>
      exfalso
      simp only [List.nil_append, List.cons_append, List.cons.injEq] at h
      exact hb d (List.mem_cons_self _ _) h.1.symm
  | cons c a' ih =>
    intro b r1 r2 ha hb h
    cases b with
    | nil =>
      exfalso
      simp only [List.cons_append, List.nil_append, List.cons.injEq] at h
      exact ha c (List.mem_cons_self _ _) h.1
    | cons d b' =>
      simp only [List.cons_append, List.cons.injEq] at h
      obtain ⟨h1, h2⟩ := ih b' r1 r2 (fun x hx => ha x (List.mem_cons_of_mem _ hx))
        (fun x hx => hb x (List.mem_cons_of_mem _ hx)) h.2
      exact ⟨by rw [h.1, h1], h2⟩

/-- Unfolding of the separator join on two or more items. -/
theorem joinComma_cons₂ (t u : List Char) (ts : List (List Char)) :
    joinComma (t :: u :: ts) = t ++ ',' :: ' ' :: joinComma (u :: ts) := rfl

/-- Joining with `", "` is injective for non-empty separator-free
tokens. -/
theorem joinComma_inj : ∀ (ts1 ts2 : List (List Char)),
    (∀ t ∈ ts1, t ≠ [] ∧ ∀ c ∈ t, c ≠ ',' ∧ c ≠ ' ') →
    (∀ t ∈ ts2, t ≠ [] ∧ ∀ c ∈ t, c ≠ ',' ∧ c ≠ ' ') →
    joinComma ts1 = joinComma ts2 → ts1 = ts2 := by
  intro ts1
  induction ts1 with
  | nil =>
    intro ts2 _ h2 h
    cases ts2 with
    | nil => rfl
    | cons t2 ts2' =>
      exfalso
      cases ts2' with
      | nil => exact (h2 t2 (List.mem_cons_self _ _)).1 h.symm
      | cons u ts2'' =>
        rw [show joinComma ([] : List (List Char)) = [] from rfl,
          joinComma_cons₂] at h
        exact absurd h.symm (by simp)
  | cons t1 ts1' ih =>
    intro ts2 h1 h2 h
    cases ts2 with
    | nil =>
      exfalso
      cases ts1' with
      | nil => exact (h1 t1 (List.mem_cons_self _ _)).1 h
      | cons u ts1'' =>
        rw [show joinComma ([] : List (List Char)) = [] from rfl,
          joinComma_cons₂] at h
        exact absurd h (by simp)
    | cons t2 ts2' =>
      cases ts1' with
      | nil =>
        cases ts2' with
        | nil =>
          have ht : t1 = t2 := h
          rw [ht]
        | cons u2 ts2'' =>
          exfalso
          have h' : t1 = t2 ++ ',' :: ' ' :: joinComma (u2 :: ts2'') := h
          have hmem : ',' ∈ t1 := by
            rw [h']
            exact List.mem_append.mpr (Or.inr (List.mem_cons_self _ _))
          exact ((h1 t1 (List.mem_cons_self _ _)).2 ',' hmem).1 rfl
      | cons u1 ts1'' =>
        cases ts2' with
        | nil =>
          exfalso
          have h' : t2 = t1 ++ ',' :: ' ' :: joinComma (u1 :: ts1'') := h.symm
          have hmem : ',' ∈ t2 := by
            rw [h']
            exact List.mem_append.mpr (Or.inr (List.mem_cons_self _ _))
          exact ((h2 t2 (List.mem_cons_self _ _)).2 ',' hmem).1 rfl
        | cons u2 ts2'' =>
          have h' : t1 ++ ',' :: ' ' :: joinComma (u1 :: ts1'')
              = t2 ++ ',' :: ' ' :: joinComma (u2 :: ts2'') := h
          have hcf1 : ∀ c ∈ t1, c ≠ ',' :=
            fun c hc => ((h1 t1 (List.mem_cons_self _ _)).2 c hc).1
          have hcf2 : ∀ c ∈ t2, c ≠ ',' :=
            fun c hc => ((h2 t2 (List.mem_cons_self _ _)).2 c hc).1
          obtain ⟨ha, hb⟩ := split_at_sep ',' t1 t2 _ _ hcf1 hcf2 h'
          simp only [List.cons.injEq, true_and] at hb
          rw [ha, ih (u2 :: ts2'')
            (fun t ht => h1 t (List.mem_cons_of_mem _ ht))
            (fun t ht => h2 t (List.mem_cons_of_mem _ ht)) hb]

/-- Mapping serialization over realistic argument lists is injective. -/
theorem map_pyValJson_inj : ∀ (l1 l2 : List PyVal),
    (∀ v ∈ l1, realisticArg v) → (∀ v ∈ l2, realisticArg v) →
    l1.map pyValJson = l2.map pyValJson → l1 = l2 := by
  intro l1
  induction l1 with
  | nil =>
    intro l2 _ _ h
    cases l2 with
    | nil => rfl
    | cons w t2 => simp at h
  | cons v t1 ih =>
    intro l2 hr1 hr2 h
    cases l2 with
    | nil => simp at h
    | cons w t2 =>
      simp only [List.map_cons, List.cons.injEq] at h
      have hvw : v = w := pyValJson_inj v w (hr1 v (List.mem_cons_self _ _))
        (hr2 w (List.mem_cons_self _ _)) h.1
      rw [hvw, ih t2 (fun x hx => hr1 x (List.mem_cons_of_mem _ hx))
        (fun x hx => hr2 x (List.mem_cons_of_mem _ hx)) h.2]

/-- Two key-sorted lists with distinct keys that are permutations of
each other are equal. -/
theorem eq_of_sorted_perm_nodupkeys :
    ∀ (l1 l2 : List (String × PyVal)), l1.Pairwise kwLE → l2.Pairwise kwLE →
      (l1.map (·.1)).Nodup → l1.Perm l2 → l1 = l2 := by
  intro l1
  induction l1 with
  | nil =>
    intro l2 _ _ _ hp
    exact (hp.symm.eq_nil).symm
  | cons a t1 ih =>
    intro l2 hs1 hs2 hnd hp
    cases l2 with
    | nil => exact (List.cons_ne_nil a t1 hp.eq_nil).elim
    | cons b t2 =>
      have ha2 : a ∈ b :: t2 := hp.mem_iff.mp (List.mem_cons_self _ _)
      have hb1 : b ∈ a :: t1 := hp.symm.mem_iff.mp (List.mem_cons_self _ _)
      have hab : a = b := by
        rcases List.mem_cons.mp hb1 with hcase | hbt1
        · exact hcase.symm
        · rcases List.mem_cons.mp ha2 with hcase | hat2
          · exact hcase
          · have hle1 : kwLE a b := (List.pairwise_cons.mp hs1).1 b hbt1
            have hle2 : kwLE b a := (List.pairwise_cons.mp hs2).1 a hat2
            have hkey : a.1 = b.1 := le_antisymm hle1 hle2
            exfalso
            have hnd2 : ((b :: t2).map (·.1)).Nodup :=
              ((hp.map (·.1)).nodup_iff).mp hnd
            rw [List.map_cons, List.nodup_cons] at hnd2
            have hmm : a.1 ∈ t2.map (·.1) := List.mem_map.mpr ⟨a, hat2, rfl⟩
            rw [hkey] at hmm
            exact hnd2.1 hmm
      subst hab
      have hpt : t1.Perm t2 := hp.cons_inv
      have htl := ih t2 (List.pairwise_cons.mp hs1).2 (List.pairwise_cons.mp hs2).2
        (by rw [List.map_cons, List.nodup_cons] at hnd; exact hnd.2) hpt
      rw [htl]

/-- Sorting is a function of the underlying key-to-value map: two
permutations with distinct keys sort identically. -/
theorem sortKW_eq_of_perm (kw1 kw2 : List (String × PyVal)) (hp : kw1.Perm kw2)
    (hnd : (kw1.map (·.1)).Nodup) : sortKW kw1 = sortKW kw2 := by
  apply eq_of_sorted_perm_nodupkeys
  · exact List.sorted_insertionSort kwLE kw1
  · exact List.sorted_insertionSort kwLE kw2
  · exact ((List.perm_insertionSort kwLE kw1).map (·.1)).nodup_iff.mpr hnd
  · exact ((List.perm_insertionSort kwLE kw1).trans hp).trans
      (List.perm_insertionSort kwLE kw2).symm

/-- A realistic keyword argument: an identifier key with a realistic
value. -/
def realisticKw (p : String × PyVal) : Prop :=
  (∀ c ∈ p.1.data, identChar c = true) ∧ realisticArg p.2

/-- What follows the head token in a joined item list: nothing, or the
`", "` separator and the remaining tokens. -/
def joinRest : List (List Char) → List Char
  | [] => []
  | u :: ts => ',' :: ' ' :: joinComma (u :: ts)

/-- Head/tail unfolding of the separator join. -/
theorem joinComma_cons (t : List Char) (ts : List (List Char)) :
    joinComma (t :: ts) = t ++ joinRest ts := by
  cases ts with
  | nil => simp [joinComma, joinRest]
  | cons u us => rfl

/-- A realistic value's serialization contains no square bracket. -/
theorem pyValJson_no_brack (v : PyVal) (hv : realisticArg v) :
    ∀ c ∈ pyValJson v, c ≠ '[' ∧ c ≠ ']' := by
  cases v with
  | none => exact hv.elim
  | bool b => exact hv.elim
  | int n =>
    intro c hc
    have hf := intChars_mem n c hc
    exact ⟨hf.2.2.2.1, hf.2.2.2.2⟩
  | str s =>
    intro c hc
    have hc' : c ∈ '"' :: (jsonEscape s.data ++ ['"']) := hc
    rw [jsonEscape_ident s.data hv] at hc'
    rcases List.mem_cons.mp hc' with h | h
    · subst h
      exact ⟨by decide, by decide⟩
    · rcases List.mem_append.mp h with h2 | h2
      · have hf := identChar_not_special c (hv c h2)
        exact ⟨hf.2.2.2.2.1, hf.2.2.2.2.2⟩
      · simp only [List.mem_singleton] at h2
        subst h2
        exact ⟨by decide, by decide⟩

/-- A character avoided by every token and by the separator is avoided
by the join. -/
theorem joinComma_no_mem (x : Char) (hx : x ≠ ',' ∧ x ≠ ' ') :
    ∀ ts : List (List Char), (∀ t ∈ ts, ∀ c ∈ t, c ≠ x) →
    ∀ c ∈ joinComma ts, c ≠ x := by
  intro ts
  induction ts with
  | nil =>
    intro _ c hc
    simp [joinComma] at hc
  | cons t ts' ih =>
    intro h c hc
    rw [joinComma_cons] at hc
    rcases List.mem_append.mp hc with h1 | h1
    · exact h t (List.mem_cons_self _ _) c h1
    · cases ts' with
      | nil => simp [joinRest] at h1
      | cons u us =>
        rcases List.mem_cons.mp h1 with h2 | h2
        · subst h2
          exact fun hc' => hx.1 hc'.symm
        · rcases List.mem_cons.mp h2 with h3 | h3
          · subst h3
            exact fun hc' => hx.2 hc'.symm
          · exact ih (fun t' ht' => h t' (List.mem_cons_of_mem _ ht')) c h3

/-- Joining with `", "` is injective for tokens of the bracketed shape
`[ ... ]` whose interior holds no closing bracket: the first unmatched
`]` ends the token. -/
theorem joinComma_bracketed_inj : ∀ (ts1 ts2 : List (List Char)),
    (∀ t ∈ ts1, ∃ ti, t = '[' :: (ti ++ [']']) ∧ ∀ c ∈ ti, c ≠ ']') →
    (∀ t ∈ ts2, ∃ ti, t = '[' :: (ti ++ [']']) ∧ ∀ c ∈ ti, c ≠ ']') →
    joinComma ts1 = joinComma ts2 → ts1 = ts2 := by
  intro ts1
  induction ts1 with
  | nil =>
    intro ts2 _ h2 h
    cases ts2 with
    | nil => rfl
    | cons t2 ts2' =>
      exfalso
      obtain ⟨ti2, ht2, _⟩ := h2 t2 (List.mem_cons_self _ _)
      rw [joinComma_cons, ht2] at h
      simp [joinComma] at h
  | cons t1 ts1' ih =>
    intro ts2 h1 h2 h
    cases ts2 with
    | nil =>
      exfalso
      obtain ⟨ti1, ht1, _⟩ := h1 t1 (List.mem_cons_self _ _)
      rw [joinComma_cons, ht1] at h
      simp [joinComma] at h
    | cons t2 ts2' =>
      obtain ⟨ti1, ht1, hni1⟩ := h1 t1 (List.mem_cons_self _ _)
      obtain ⟨ti2, ht2, hni2⟩ := h2 t2 (List.mem_cons_self _ _)
      rw [joinComma_cons, joinComma_cons, ht1, ht2] at h
      have h' : ti1 ++ ']' :: joinRest ts1' = ti2 ++ ']' :: joinRest ts2' := by
        have h3 := h
        simp only [List.cons_append, List.append_assoc, List.singleton_append,
          List.cons.injEq, true_and] at h3
        exact h3
      obtain ⟨hti, hrest⟩ := split_at_sep ']' ti1 ti2 _ _ hni1 hni2 h'
      have ht12 : t1 = t2 := by rw [ht1, ht2, hti]
      cases ts1' with
      | nil =>
        cases ts2' with
        | nil => rw [ht12]
        | cons u2 us2 =>
          exfalso
          simp [joinRest] at hrest
      | cons u1 us1 =>
        cases ts2' with
        | nil =>
          exfalso
          simp [joinRest] at hrest
        | cons u2 us2 =>
          simp only [joinRest, List.cons.injEq, true_and] at hrest
          rw [ht12, ih (u2 :: us2) (fun t ht => h1 t (List.mem_cons_of_mem _ ht))
            (fun t ht => h2 t (List.mem_cons_of_mem _ ht)) hrest]

/-- A serialized keyword item is a bracketed token whose interior holds
no closing bracket. -/
theorem kwItemJson_bracketed (p : String × PyVal) (hp : realisticKw p) :
    ∃ ti, kwItemJson p = '[' :: (ti ++ [']']) ∧ ∀ c ∈ ti, c ≠ ']' := by
  refine ⟨pyValJson (.str p.1) ++ ',' :: ' ' :: pyValJson p.2, rfl, ?_⟩
  intro c hc
  rcases List.mem_append.mp hc with h | h
  · exact (pyValJson_no_brack (.str p.1) hp.1 c h).2
  · rcases List.mem_cons.mp h with h2 | h2
    · subst h2
      decide
    · rcases List.mem_cons.mp h2 with h3 | h3
      · subst h3
        decide
      · exact (pyValJson_no_brack p.2 hp.2 c h3).2

/-- Keyword-item serialization is injective on realistic items. -/
theorem kwItemJson_inj (p q : String × PyVal) (hp : realisticKw p)
    (hq : realisticKw q) (h : kwItemJson p = kwItemJson q) : p = q := by
  have h' : pyValJson (.str p.1) ++ ',' :: ' ' :: pyValJson p.2
      = pyValJson (.str q.1) ++ ',' :: ' ' :: pyValJson q.2 := by
    have h3 : '[' :: ((pyValJson (.str p.1) ++ ',' :: ' ' :: pyValJson p.2) ++ [']'])
        = '[' :: ((pyValJson (.str q.1) ++ ',' :: ' ' :: pyValJson q.2) ++ [']']) := h
    simp only [List.cons.injEq, true_and] at h3
    exact List.append_cancel_right h3
  have hsep1 : ∀ c ∈ pyValJson (.str p.1), c ≠ ',' :=
    fun c hc => (pyValJson_no_sep (.str p.1) hp.1 c hc).1
  have hsep2 : ∀ c ∈ pyValJson (.str q.1), c ≠ ',' :=
    fun c hc => (pyValJson_no_sep (.str q.1) hq.1 c hc).1
  obtain ⟨hk, hv⟩ := split_at_sep ',' _ _ _ _ hsep1 hsep2 h'
  simp only [List.cons.injEq, true_and] at hv
  have h1 : PyVal.str p.1 = PyVal.str q.1 := pyValJson_inj _ _ hp.1 hq.1 hk
  have h2 : p.2 = q.2 := pyValJson_inj _ _ hp.2 hq.2 hv
  have h1' : p.1 = q.1 := by injection h1
  exact Prod.ext h1' h2

/-- Mapping keyword-item serialization over realistic lists is
injective. -/
theorem map_kwItemJson_inj : ∀ (l1 l2 : List (String × PyVal)),
    (∀ p ∈ l1, realisticKw p) → (∀ p ∈ l2, realisticKw p) →
    l1.map kwItemJson = l2.map kwItemJson → l1 = l2 := by
  intro l1
  induction l1 with
  | nil =>
    intro l2 _ _ h
    cases l2 with
    | nil => rfl
    | cons q t2 => simp at h
  | cons p t1 ih =>
    intro l2 hr1 hr2 h
    cases l2 with
    | nil => simp at h
    | cons q t2 =>
      simp only [List.map_cons, List.cons.injEq] at h
      have hpq : p = q := kwItemJson_inj p q (hr1 p (List.mem_cons_self _ _))
        (hr2 q (List.mem_cons_self _ _)) h.1
      rw [hpq, ih t2 (fun x hx => hr1 x (List.mem_cons_of_mem _ hx))
        (fun x hx => hr2 x (List.mem_cons_of_mem _ hx)) h.2]

/-- The serialized kwargs component is injective on realistic item
lists: the empty object is distinguished from any array by its head. -/
theorem kwargsJson_inj : ∀ (l1 l2 : List (String × PyVal)),
    (∀ p ∈ l1, realisticKw p) → (∀ p ∈ l2, realisticKw p) →
    kwargsJson l1 = kwargsJson l2 → l1 = l2 := by
  intro l1 l2 h1 h2 h
  cases l1 with
  | nil =>
    cases l2 with
    | nil => rfl
    | cons q l2' =>
      exfalso
      have h' : ['\x7b', '\x7d']
          = '[' :: (joinComma ((q :: l2').map kwItemJson) ++ [']']) := h
      injection h' with hhead _
      exact absurd hhead (by decide)
  | cons p l1' =>
    cases l2 with
    | nil =>
      exfalso
      have h' : '[' :: (joinComma ((p :: l1').map kwItemJson) ++ [']'])
          = ['\x7b', '\x7d'] := h
      injection h' with hhead _
      exact absurd hhead (by decide)
    | cons q l2' =>
      have h' : joinComma ((p :: l1').map kwItemJson)
          = joinComma ((q :: l2').map kwItemJson) := by
        have h3 : '[' :: (joinComma ((p :: l1').map kwItemJson) ++ [']'])
            = '[' :: (joinComma ((q :: l2').map kwItemJson) ++ [']']) := h
        simp only [List.cons.injEq, true_and] at h3
        exact List.append_cancel_right h3
      have hb1 : ∀ t ∈ (p :: l1').map kwItemJson,
          ∃ ti, t = '[' :: (ti ++ [']']) ∧ ∀ c ∈ ti, c ≠ ']' := by
        intro t ht
        obtain ⟨x, hx, rfl⟩ := List.mem_map.mp ht
        exact kwItemJson_bracketed x (h1 x hx)
      have hb2 : ∀ t ∈ (q :: l2').map kwItemJson,
          ∃ ti, t = '[' :: (ti ++ [']']) ∧ ∀ c ∈ ti, c ≠ ']' := by
        intro t ht
        obtain ⟨x, hx, rfl⟩ := List.mem_map.mp ht
        exact kwItemJson_bracketed x (h2 x hx)
      exact map_kwItemJson_inj _ _ h1 h2
        (joinComma_bracketed_inj _ _ hb1 hb2 h')

/-- Decimal representations of naturals below `10 ^ L` have at most `L`
characters. -/
theorem natChars_length_le (n L : Nat) (hL : 1 ≤ L) (h : n < 10 ^ L) :
    (natChars n).length ≤ L := by
  unfold natChars
  split
  · simpa using hL
  · rename_i h0
    rw [List.length_map, List.length_reverse]
    by_contra hlen
    push_neg at hlen
    have h1 : 10 ^ (Nat.digits 10 n).length ≤ 10 * n :=
      Nat.base_pow_length_digits_le 10 n (by norm_num) h0
    have h2 : 10 ^ (L + 1) ≤ 10 ^ (Nat.digits 10 n).length :=
      Nat.pow_le_pow_right (by norm_num) hlen
    rw [pow_succ] at h2
    have h3 : 10 ^ L * 10 ≤ 10 * n := le_trans h2 h1
    omega

/-- A decimal identifier string. -/
def digitIdent (n : Nat) : String := String.mk (natChars n)

/-- Distinct naturals give distinct decimal identifiers. -/
theorem digitIdent_inj : ∀ m n : Nat, digitIdent m = digitIdent n → m = n :=
  fun m n h => natChars_inj m n (congrArg String.data h)

/-- The pre-hash `key_string` is injective jointly in the positional
arguments and the keyword-argument map, over the realistic argument
space: the args array ends at the first `]` (realistic argument tokens
contain no bracket), and the kwargs component is the empty object or an
array of bracketed key/value items.  Keyword maps are recovered up to
permutation — equality as maps. -/
theorem key_string_inj : ∀ (args1 args2 : List PyVal)
    (kw1 kw2 : List (String × PyVal)),
    (∀ v ∈ args1, realisticArg v) → (∀ v ∈ args2, realisticArg v) →
    (∀ p ∈ kw1, realisticKw p) → (∀ p ∈ kw2, realisticKw p) →
    key_string args1 kw1 = key_string args2 kw2 →
    args1 = args2 ∧ kw1.Perm kw2 := by
  intro args1 args2 kw1 kw2 hr1 hr2 hk1 hk2 h
  unfold key_string at h
  simp only [List.append_assoc] at h
  have h1 := List.append_cancel_left h
  unfold jsonArray at h1
  simp only [List.cons_append, List.append_assoc, List.singleton_append,
    List.cons.injEq, true_and] at h1
  have hnoJ1 : ∀ c ∈ joinComma (args1.map pyValJson), c ≠ ']' := by
    refine joinComma_no_mem ']' ⟨by decide, by decide⟩ _ ?_
    intro t ht c hc
    obtain ⟨v, hv, rfl⟩ := List.mem_map.mp ht
    exact (pyValJson_no_brack v (hr1 v hv) c hc).2
  have hnoJ2 : ∀ c ∈ joinComma (args2.map pyValJson), c ≠ ']' := by
    refine joinComma_no_mem ']' ⟨by decide, by decide⟩ _ ?_
    intro t ht c hc
    obtain ⟨v, hv, rfl⟩ := List.mem_map.mp ht
    exact (pyValJson_no_brack v (hr2 v hv) c hc).2
  obtain ⟨hJ, hR⟩ := split_at_sep ']' _ _ _ _ hnoJ1 hnoJ2 h1
  have hargs : args1 = args2 := by
    have htok1 : ∀ t ∈ args1.map pyValJson,
        t ≠ [] ∧ ∀ c ∈ t, c ≠ ',' ∧ c ≠ ' ' := by
      intro t ht
      obtain ⟨v, hv, rfl⟩ := List.mem_map.mp ht
      exact ⟨pyValJson_ne_nil v, pyValJson_no_sep v (hr1 v hv)⟩
    have htok2 : ∀ t ∈ args2.map pyValJson,
        t ≠ [] ∧ ∀ c ∈ t, c ≠ ',' ∧ c ≠ ' ' := by
      intro t ht
      obtain ⟨v, hv, rfl⟩ := List.mem_map.mp ht
      exact ⟨pyValJson_ne_nil v, pyValJson_no_sep v (hr2 v hv)⟩
    exact map_pyValJson_inj args1 args2 hr1 hr2
      (joinComma_inj _ _ htok1 htok2 hJ)
  have hR' := hR
  simp only [List.nil_append, List.cons.injEq, true_and] at hR'
  have hK2 := List.append_cancel_right hR'
  have hks1 : ∀ p ∈ sortKW kw1, realisticKw p :=
    fun p hp => hk1 p ((List.perm_insertionSort kwLE kw1).mem_iff.mp hp)
  have hks2 : ∀ p ∈ sortKW kw2, realisticKw p :=
    fun p hp => hk2 p ((List.perm_insertionSort kwLE kw2).mem_iff.mp hp)
  have hsorted : sortKW kw1 = sortKW kw2 := kwargsJson_inj _ _ hks1 hks2 hK2
  have hp : kw1.Perm (sortKW kw1) := (List.perm_insertionSort kwLE kw1).symm
  rw [hsorted] at hp
  exact ⟨hargs, hp.trans (List.perm_insertionSort kwLE kw2)⟩

/-- C8 (counterexample): whatever function the process's seeded string
hash is, the derived key ranges over the `2^63 + 1` values of
`abs(hash(.))`, while there are `10^19` realistic identifier arguments
of at most 19 characters — so two distinct realistic arguments with
identical keys always exist and the claimed key difference fails.  The
collision cannot be computed because the seed is unknown; the pigeonhole
argument holds for every possible hash. -/
theorem claim8_key_collision_counterexample :
    (∀ h : String → Fin hashBound, ∃ s1 s2 : String,
      s1 ≠ s2
      ∧ realisticArg (.str s1) ∧ realisticArg (.str s2)
      ∧ s1.length ≤ 19 ∧ s2.length ≤ 19
      ∧ generate_cache_key h [.str "get_game_data", .str s1] []
          = generate_cache_key h [.str "get_game_data", .str s2] [])
    ∧ hashBound < 10 ^ 19 := by
  constructor
  · intro h
    have hcard : Fintype.card (Fin hashBound)
        < Fintype.card (Fin (hashBound + 1)) := by
      rw [Fintype.card_fin, Fintype.card_fin]
      exact Nat.lt_succ_self hashBound
    obtain ⟨n, m, hnm, hgnm⟩ := Fintype.exists_ne_map_eq_of_card_lt
      (fun n : Fin (hashBound + 1) => h (String.mk
        (key_string [.str "get_game_data", .str (digitIdent n.val)] []))) hcard
    have hub : ∀ j : Fin (hashBound + 1), j.val < 10 ^ 19 := by
      intro j
      have h1 : hashBound + 1 ≤ 10 ^ 19 := by norm_num [hashBound]
      omega
    refine ⟨digitIdent n.val, digitIdent m.val, ?_, ?_, ?_, ?_, ?_, ?_⟩
    · intro hc
      exact hnm (Fin.ext (digitIdent_inj _ _ hc))
    · intro c hc
      exact (natChars_mem n.val c hc).2.1
    · intro c hc
      exact (natChars_mem m.val c hc).2.1
    · exact natChars_length_le n.val 19 (by norm_num) (hub n)
    · exact natChars_length_le m.val 19 (by norm_num) (hub m)
    · exact congrArg (fun x : Fin hashBound => toString x.val) hgnm
  · norm_num [hashBound]

/-- C8 (amended): the key derivation is order-independent — two
keyword-argument maps equal as maps yield the same key for every
possible process hash — and on the realistic argument space the
pre-hash `key_string` is injective jointly in the positional arguments
and the keyword-argument map: two calls produce the same `key_string`
only when their positional arguments are equal and their keyword
arguments are equal as maps; so any difference in a positional or
named argument value yields a different `key_string`, and the final
keys then differ unless the process's finite-range string hash
collides (which, by the counterexample, it must somewhere). -/
theorem claim8_key_stability :
    (∀ (h : String → Fin hashBound) (args : List PyVal)
        (kw1 kw2 : List (String × PyVal)),
      kw1.Perm kw2 → (kw1.map (·.1)).Nodup →
      generate_cache_key h args kw1 = generate_cache_key h args kw2)
    ∧ (∀ (args1 args2 : List PyVal) (kw1 kw2 : List (String × PyVal)),
      (∀ v ∈ args1, realisticArg v) → (∀ v ∈ args2, realisticArg v) →
      (∀ p ∈ kw1, realisticKw p) → (∀ p ∈ kw2, realisticKw p) →
      key_string args1 kw1 = key_string args2 kw2 →
      args1 = args2 ∧ kw1.Perm kw2) := by
  constructor
  · intro h args kw1 kw2 hp hnd
    unfold generate_cache_key key_string
    rw [sortKW_eq_of_perm kw1 kw2 hp hnd]
  · exact key_string_inj

end Artie
